import Mathlib

/-!
Verification development for the duplicate-detection core of the
`awesome-failed-ml-experiments` repository (`scripts/deduplicate.py`).

The Python script detects duplicate submissions via three mechanisms:
exact matching of SHA-256 hashes of normalized content, fuzzy title
similarity, and fuzzy content similarity, both computed with
`difflib.SequenceMatcher(None, a, b).ratio()`.

This file gives a shallow embedding of that code:
* `normalize_text` models `normalize_text` (lowercase, strip
  punctuation, collapse whitespace, strip), on the ASCII fragment of
  Python's character classes (`str.lower`, `\w`, `\s`);
* `sequenceRatio` models CPython `difflib.SequenceMatcher.ratio()` with
  `isjunk = None` (so `bjunk` is always empty and the junk-extension
  loops of `find_longest_match` are no-ops) and the default
  `autojunk = True` popularity purge of `__chain_b`;
* Python floats are modelled as exact rationals (`ℚ`);
* `compute_similarity`, `compute_hash`, `check_duplicate`, and
  `check_submissions_for_duplicates` model the functions of the same
  names; file paths, used only as identities, are modelled as strings,
  and the filesystem/frontmatter loader boundary is modelled as an
  explicit `load : String → Option Submission` argument.
-/

namespace Dedup

/-! ### Python character classes (ASCII fragment)

`pyIsSpace` models Python's `\s` on ASCII (`" \t\n\v\f\r"`), and
`pyIsWord` models Python's `\w` on ASCII (alphanumerics plus
underscore).  `Char.toLower` agrees with `str.lower` on ASCII. -/

def pyIsSpace (c : Char) : Bool :=
  c = ' ' || c = '\t' || c = '\n' || c = '\x0b' || c = '\x0c' || c = '\r'

def pyIsWord (c : Char) : Bool :=
  c.isAlphanum || c = '_'

/-! ### `normalize_text`

```python
text = text.lower()
text = re.sub(r"[^\w\s]", "", text)
text = re.sub(r"\s+", " ", text)
return text.strip()
```
-/

/-- Worker for `collapseWs`: the flag records whether we are inside a
whitespace run whose single replacement space has already been
emitted. -/
def collapseWsGo : Bool → List Char → List Char
  | _, [] => []
  | inRun, c :: cs =>
    if pyIsSpace c then
      if inRun then collapseWsGo true cs else ' ' :: collapseWsGo true cs
    else c :: collapseWsGo false cs

/-- `re.sub(r"\s+", " ", ·)`: replace each maximal run of whitespace
characters by a single space. -/
def collapseWs (l : List Char) : List Char := collapseWsGo false l

/-- Python `str.strip()`: drop leading and trailing whitespace. -/
def pyStrip (l : List Char) : List Char :=
  ((l.dropWhile pyIsSpace).reverse.dropWhile pyIsSpace).reverse

/-- `normalize_text` from `scripts/deduplicate.py`. -/
def normalize_text (text : String) : String :=
  let lowered := text.toList.map Char.toLower
  let kept := lowered.filter (fun c => pyIsWord c || pyIsSpace c)
  String.mk (pyStrip (collapseWs kept))

/-! ### `difflib.SequenceMatcher` (CPython), specialised to `isjunk = None`

The scorer used by `compute_similarity` is
`SequenceMatcher(None, norm1, norm2).ratio()`.  We model the exact
CPython algorithm: `__chain_b` builds `b2j` (positions of each element
of `b`, with "popular" elements purged when `len(b) >= 200`),
`find_longest_match` runs the row-by-row dynamic-programming scan with
its best-so-far tie-breaking and then extends the best block on both
ends, `get_matching_blocks` recurses on the two unmatched remainders,
and `ratio` is `2 * M / T` (as an exact rational), or `1` when both
strings are empty. -/

/-- Ascending positions (offset by `start`) at which `c` occurs. -/
def indicesFrom (c : Char) (start : Nat) : List Char → List Nat
  | [] => []
  | x :: xs =>
    if x = c then start :: indicesFrom c (start + 1) xs
    else indicesFrom c (start + 1) xs

/-- Ascending positions at which `c` occurs in `b`. -/
def indicesOf (b : List Char) (c : Char) : List Nat := indicesFrom c 0 b

/-- `b2j` as built by `SequenceMatcher.__chain_b` with `isjunk = None`:
the positions of `c` in `b`, except that when `len(b) >= 200` an
element occurring more than `len(b) // 100 + 1` times is "popular" and
its entry is deleted (the `autojunk` heuristic). -/
def b2j (b : List Char) (c : Char) : List Nat :=
  if 200 ≤ b.length ∧ b.length / 100 + 1 < b.count c then []
  else indicesOf b c

/-- The `(besti, bestj, bestsize)` triple threaded through
`find_longest_match`. -/
structure FLMState where
  besti : Nat
  bestj : Nat
  bestsize : Nat
deriving DecidableEq, Repr

/-- Inner loop of the `find_longest_match` scan: for one fixed `i`,
walk the ascending position list `b2j[a[i]]`, skipping `j < blo`
(`continue`), stopping at `j >= bhi` (`break`), and otherwise setting
`k = j2len.get(j-1, 0) + 1` (reading the previous row `row`), writing
`k` into the new row, and updating the best block when `k > bestsize`.
Python's `j - 1` is `-1` when `j = 0`, and `dict.get(-1, 0)` is `0`,
hence the special case. -/
def flmInner (blo bhi i : Nat) (row : Nat → Nat) :
    List Nat → (Nat → Nat) → FLMState → ((Nat → Nat) × FLMState)
  | [], newRow, st => (newRow, st)
  | j :: js, newRow, st =>
    if j < blo then flmInner blo bhi i row js newRow st
    else if bhi ≤ j then (newRow, st)
    else
      let k := if j = 0 then 1 else row (j - 1) + 1
      let newRow' : Nat → Nat := fun j' => if j' = j then k else newRow j'
      let st' : FLMState := if st.bestsize < k then ⟨i + 1 - k, j + 1 - k, k⟩ else st
      flmInner blo bhi i row js newRow' st'

/-- Outer loop of the `find_longest_match` scan over `i` in
`range(alo, ahi)`; each iteration starts a fresh empty row. -/
def flmScan (a : List Char) (bj : Char → List Nat) (blo bhi : Nat) :
    List Nat → (Nat → Nat) → FLMState → FLMState
  | [], _, st => st
  | i :: is, row, st =>
    let p := flmInner blo bhi i row (bj (a.getD i ' ')) (fun _ => 0) st
    flmScan a bj blo bhi is p.1 p.2

/-- The first `while` loop of `find_longest_match`: extend the best
block leftwards while the adjacent elements are equal (with
`isjunk = None`, `bjunk` is empty, so the junk test never blocks).
The loop decrements `besti`, so it is structural recursion on `besti`
(when `besti = 0` the guard `alo < besti` is false and the loop
stops).  The `getD` defaults differ so that an out-of-range read can
never spuriously succeed (in-range is guaranteed by the loop
guards). -/
def extendLeft (a b : List Char) (alo blo : Nat) :
    Nat → Nat → Nat → FLMState
  | 0, bestj, bestsize => ⟨0, bestj, bestsize⟩
  | besti + 1, bestj, bestsize =>
    if alo < besti + 1 ∧ blo < bestj ∧
        a.getD besti 'a' = b.getD (bestj - 1) 'b' then
      extendLeft a b alo blo besti (bestj - 1) (bestsize + 1)
    else ⟨besti + 1, bestj, bestsize⟩

/-- Worker for the second `while` loop of `find_longest_match`: the
fuel argument is exactly `ahi - (besti + bestsize)`, so `fuel = 0` is
precisely the failure of the loop guard `besti + bestsize < ahi`, and
the remaining guard conjuncts are tested explicitly. -/
def extendRightGo (a b : List Char) (bhi besti bestj : Nat) :
    Nat → Nat → Nat
  | 0, bestsize => bestsize
  | fuel + 1, bestsize =>
    if bestj + bestsize < bhi ∧
        a.getD (besti + bestsize) 'a' = b.getD (bestj + bestsize) 'b' then
      extendRightGo a b bhi besti bestj fuel (bestsize + 1)
    else bestsize

/-- The second `while` loop of `find_longest_match`: extend the best
block rightwards while the adjacent elements are equal. -/
def extendRight (a b : List Char) (ahi bhi besti bestj : Nat)
    (bestsize : Nat) : Nat :=
  extendRightGo a b bhi besti bestj (ahi - (besti + bestsize)) bestsize

/-- `SequenceMatcher.find_longest_match(alo, ahi, blo, bhi)` with
`isjunk = None`: the scan followed by the two extension loops (the two
junk-extension loops are no-ops since `bjunk` is empty). -/
def find_longest_match (a b : List Char) (bj : Char → List Nat)
    (alo ahi blo bhi : Nat) : FLMState :=
  let st := flmScan a bj blo bhi (List.range' alo (ahi - alo)) (fun _ => 0)
    ⟨alo, blo, 0⟩
  let stL := extendLeft a b alo blo st.besti st.bestj st.bestsize
  ⟨stL.besti, stL.bestj, extendRight a b ahi bhi stL.besti stL.bestj stL.bestsize⟩

/-- Unfolding: one step of the rightward extension loop. -/
theorem extendRight_step (a b : List Char) (ahi bhi besti bestj bestsize : Nat)
    (h : besti + bestsize < ahi ∧ bestj + bestsize < bhi ∧
      a.getD (besti + bestsize) 'a' = b.getD (bestj + bestsize) 'b') :
    extendRight a b ahi bhi besti bestj bestsize =
      extendRight a b ahi bhi besti bestj (bestsize + 1) := by
  obtain ⟨h1, h2, h3⟩ := h
  unfold extendRight
  have hf : ahi - (besti + bestsize) = (ahi - (besti + bestsize + 1)) + 1 := by
    omega
  rw [hf]
  simp only [extendRightGo, if_pos (And.intro h2 h3)]
  rw [Nat.add_assoc]

/-- Unfolding: the rightward extension loop stops when its guard fails. -/
theorem extendRight_stop (a b : List Char) (ahi bhi besti bestj bestsize : Nat)
    (h : ¬ (besti + bestsize < ahi ∧ bestj + bestsize < bhi ∧
      a.getD (besti + bestsize) 'a' = b.getD (bestj + bestsize) 'b')) :
    extendRight a b ahi bhi besti bestj bestsize = bestsize := by
  unfold extendRight
  by_cases h1 : besti + bestsize < ahi
  · have hf : ahi - (besti + bestsize) = (ahi - (besti + bestsize + 1)) + 1 := by
      omega
    rw [hf]
    simp only [extendRightGo]
    rw [if_neg]
    intro hc
    exact h ⟨h1, hc.1, hc.2⟩
  · have hf : ahi - (besti + bestsize) = 0 := by omega
    rw [hf]
    rfl

/-- Unfolding: one step of the leftward extension loop. -/
theorem extendLeft_step (a b : List Char) (alo blo besti bestj bestsize : Nat)
    (h : alo < besti ∧ blo < bestj ∧
      a.getD (besti - 1) 'a' = b.getD (bestj - 1) 'b') :
    extendLeft a b alo blo besti bestj bestsize =
      extendLeft a b alo blo (besti - 1) (bestj - 1) (bestsize + 1) := by
  cases besti with
  | zero => exact absurd h.1 (by omega)
  | succ n =>
    simp only [extendLeft]
    rw [if_pos (show alo < n + 1 ∧ blo < bestj ∧
      a.getD n 'a' = b.getD (bestj - 1) 'b' from h)]
    rfl

/-- Unfolding: the leftward extension loop stops when its guard fails. -/
theorem extendLeft_stop (a b : List Char) (alo blo besti bestj bestsize : Nat)
    (h : ¬ (alo < besti ∧ blo < bestj ∧
      a.getD (besti - 1) 'a' = b.getD (bestj - 1) 'b')) :
    extendLeft a b alo blo besti bestj bestsize = ⟨besti, bestj, bestsize⟩ := by
  cases besti with
  | zero => rfl
  | succ n =>
    simp only [extendLeft]
    rw [if_neg]
    exact h

/-! #### Range bounds on `find_longest_match`

These lemmas justify termination of the `get_matching_blocks`
recursion: the returned block lies within the requested ranges. -/

/-- Range invariant for the scan state: the block is inside
`[alo, ahi) × [blo, bhi)` when non-empty, and is the initial
`(alo, blo, 0)` when empty. -/
def FLMInv (alo ahi blo bhi : Nat) (st : FLMState) : Prop :=
  alo ≤ st.besti ∧ blo ≤ st.bestj ∧
  (st.bestsize = 0 → st.besti = alo ∧ st.bestj = blo) ∧
  (st.bestsize ≠ 0 → st.besti + st.bestsize ≤ ahi ∧ st.bestj + st.bestsize ≤ bhi)

theorem flmInner_inv (alo ahi blo bhi i : Nat) (row : Nat → Nat)
    (halo : alo ≤ i) (hi : i < ahi)
    (hrowA : ∀ j', row j' + alo ≤ i)
    (hrowB : ∀ j', blo ≤ j' + 1 → row j' + blo ≤ j' + 1)
    (js : List Nat) :
    ∀ (newRow : Nat → Nat) (st : FLMState),
    FLMInv alo ahi blo bhi st →
    FLMInv alo ahi blo bhi (flmInner blo bhi i row js newRow st).2 := by
  induction js with
  | nil => intro newRow st hst; simpa [flmInner] using hst
  | cons j js ih =>
    intro newRow st hst
    by_cases hjlo : j < blo
    · simp only [flmInner, if_pos hjlo]
      exact ih _ _ hst
    · by_cases hjhi : bhi ≤ j
      · simp only [flmInner, if_neg hjlo, if_pos hjhi]
        exact hst
      · simp only [flmInner, if_neg hjlo, if_neg hjhi]
        refine ih _ _ ?_
        have hk1 : 1 ≤ (if j = 0 then 1 else row (j - 1) + 1) := by
          split <;> omega
        have hkA : (if j = 0 then 1 else row (j - 1) + 1) + alo ≤ i + 1 := by
          split
          · omega
          · have := hrowA (j - 1); omega
        have hkB : (if j = 0 then 1 else row (j - 1) + 1) + blo ≤ j + 1 := by
          split
          · omega
          · have := hrowB (j - 1) (by omega); omega
        obtain ⟨s1, s2, s3, s4⟩ := hst
        by_cases hup :
            st.bestsize < (if j = 0 then 1 else row (j - 1) + 1)
        · simp only [if_pos hup, FLMInv]
          omega
        · simp only [if_neg hup]
          exact ⟨s1, s2, s3, s4⟩

theorem flmInner_row (alo blo bhi i : Nat) (row : Nat → Nat)
    (halo : alo ≤ i)
    (hrowA : ∀ j', row j' + alo ≤ i)
    (hrowB : ∀ j', blo ≤ j' + 1 → row j' + blo ≤ j' + 1)
    (js : List Nat) :
    ∀ (newRow : Nat → Nat) (st : FLMState),
    (∀ j', newRow j' + alo ≤ i + 1) →
    (∀ j', blo ≤ j' + 1 → newRow j' + blo ≤ j' + 1) →
    (∀ j', (flmInner blo bhi i row js newRow st).1 j' + alo ≤ i + 1) ∧
    (∀ j', blo ≤ j' + 1 →
      (flmInner blo bhi i row js newRow st).1 j' + blo ≤ j' + 1) := by
  induction js with
  | nil => intro newRow st hA hB; simpa [flmInner] using ⟨hA, hB⟩
  | cons j js ih =>
    intro newRow st hA hB
    by_cases hjlo : j < blo
    · simp only [flmInner, if_pos hjlo]
      exact ih _ _ hA hB
    · by_cases hjhi : bhi ≤ j
      · simp only [flmInner, if_neg hjlo, if_pos hjhi]
        exact ⟨hA, hB⟩
      · simp only [flmInner, if_neg hjlo, if_neg hjhi]
        refine ih _ _ ?_ ?_
        · intro j'
          dsimp only
          split
          · next hj' =>
            split
            · omega
            · have := hrowA (j - 1); omega
          · exact hA j'
        · intro j' hblo
          dsimp only
          split
          · next hj' =>
            subst hj'
            split
            · omega
            · have := hrowB (j' - 1) (by omega); omega
          · exact hB j' hblo

theorem flmScan_inv (a : List Char) (bj : Char → List Nat)
    (alo ahi blo bhi : Nat) (m : Nat) :
    ∀ (i : Nat) (row : Nat → Nat) (st : FLMState),
    alo ≤ i → i + m ≤ ahi →
    (∀ j', row j' + alo ≤ i) →
    (∀ j', blo ≤ j' + 1 → row j' + blo ≤ j' + 1) →
    FLMInv alo ahi blo bhi st →
    FLMInv alo ahi blo bhi (flmScan a bj blo bhi (List.range' i m) row st) := by
  induction m with
  | zero => intro i row st _ _ _ _ hst; simpa [flmScan] using hst
  | succ m ih =>
    intro i row st halo hm hrowA hrowB hst
    have hi : i < ahi := by omega
    rw [List.range'_succ]
    simp only [flmScan]
    have hrow := flmInner_row alo blo bhi i row (by omega) hrowA hrowB
      (bj (a.getD i ' ')) (fun _ => 0) st
      (fun j' => by show (0 : Nat) + alo ≤ i + 1; omega)
      (fun j' hb => by show (0 : Nat) + blo ≤ j' + 1; omega)
    exact ih (i + 1) _ _ (by omega) (by omega) hrow.1 hrow.2
      (flmInner_inv alo ahi blo bhi i row halo hi hrowA hrowB _ _ _ hst)

theorem extendLeft_inv (a b : List Char) (alo blo ahi bhi : Nat) :
    ∀ (besti bestj bestsize : Nat),
    FLMInv alo ahi blo bhi ⟨besti, bestj, bestsize⟩ →
    FLMInv alo ahi blo bhi (extendLeft a b alo blo besti bestj bestsize) := by
  intro besti
  induction besti using Nat.strong_induction_on with
  | _ besti ih =>
    intro bestj bestsize hst
    by_cases h : alo < besti ∧ blo < bestj ∧
        a.getD (besti - 1) 'a' = b.getD (bestj - 1) 'b'
    · rw [extendLeft_step a b alo blo besti bestj bestsize h]
      obtain ⟨h1, h2, -⟩ := h
      refine ih (besti - 1) (by omega) (bestj - 1) (bestsize + 1) ?_
      obtain ⟨s1, s2, s3, s4⟩ := hst
      simp only [FLMInv] at *
      omega
    · rw [extendLeft_stop a b alo blo besti bestj bestsize h]
      exact hst

theorem extendRight_bounds (a b : List Char) (ahi bhi besti bestj : Nat)
    (bestsize : Nat) :
    extendRight a b ahi bhi besti bestj bestsize = bestsize ∨
    (besti + extendRight a b ahi bhi besti bestj bestsize ≤ ahi ∧
     bestj + extendRight a b ahi bhi besti bestj bestsize ≤ bhi) := by
  generalize hfuel : ahi - (besti + bestsize) = fuel
  induction fuel generalizing bestsize with
  | zero =>
    by_cases h : besti + bestsize < ahi ∧ bestj + bestsize < bhi ∧
        a.getD (besti + bestsize) 'a' = b.getD (bestj + bestsize) 'b'
    · exact absurd h.1 (by omega)
    · rw [extendRight_stop a b ahi bhi besti bestj bestsize h]
      left; rfl
  | succ fuel ih =>
    by_cases h : besti + bestsize < ahi ∧ bestj + bestsize < bhi ∧
        a.getD (besti + bestsize) 'a' = b.getD (bestj + bestsize) 'b'
    · rw [extendRight_step a b ahi bhi besti bestj bestsize h]
      rcases ih (bestsize + 1) (by omega) with h' | h'
      · right; rw [h']; omega
      · right; exact h'
    · rw [extendRight_stop a b ahi bhi besti bestj bestsize h]
      left; rfl

theorem extendRight_ge (a b : List Char) (ahi bhi besti bestj : Nat)
    (bestsize : Nat) :
    bestsize ≤ extendRight a b ahi bhi besti bestj bestsize := by
  generalize hfuel : ahi - (besti + bestsize) = fuel
  induction fuel generalizing bestsize with
  | zero =>
    by_cases h : besti + bestsize < ahi ∧ bestj + bestsize < bhi ∧
        a.getD (besti + bestsize) 'a' = b.getD (bestj + bestsize) 'b'
    · exact absurd h.1 (by omega)
    · rw [extendRight_stop a b ahi bhi besti bestj bestsize h]
  | succ fuel ih =>
    by_cases h : besti + bestsize < ahi ∧ bestj + bestsize < bhi ∧
        a.getD (besti + bestsize) 'a' = b.getD (bestj + bestsize) 'b'
    · rw [extendRight_step a b ahi bhi besti bestj bestsize h]
      have := ih (bestsize + 1) (by omega)
      omega
    · rw [extendRight_stop a b ahi bhi besti bestj bestsize h]

/-- The block returned by `find_longest_match` lies inside the
requested ranges (when non-empty), and its corner respects the lower
bounds unconditionally. -/
theorem flm_bounds (a b : List Char) (bj : Char → List Nat)
    (alo ahi blo bhi : Nat) :
    alo ≤ (find_longest_match a b bj alo ahi blo bhi).besti ∧
    blo ≤ (find_longest_match a b bj alo ahi blo bhi).bestj ∧
    ((find_longest_match a b bj alo ahi blo bhi).bestsize ≠ 0 →
      (find_longest_match a b bj alo ahi blo bhi).besti +
        (find_longest_match a b bj alo ahi blo bhi).bestsize ≤ ahi ∧
      (find_longest_match a b bj alo ahi blo bhi).bestj +
        (find_longest_match a b bj alo ahi blo bhi).bestsize ≤ bhi) := by
  have hinit : FLMInv alo ahi blo bhi ⟨alo, blo, 0⟩ :=
    ⟨Nat.le_refl _, Nat.le_refl _, fun _ => ⟨rfl, rfl⟩, fun h => (h rfl).elim⟩
  have hscan : FLMInv alo ahi blo bhi
      (flmScan a bj blo bhi (List.range' alo (ahi - alo)) (fun _ => 0)
        ⟨alo, blo, 0⟩) := by
    rcases le_or_lt alo ahi with hle | hlt
    · exact flmScan_inv a bj alo ahi blo bhi (ahi - alo) alo
        (fun _ => 0) ⟨alo, blo, 0⟩ (Nat.le_refl _) (by omega)
        (fun j' => by show (0 : Nat) + alo ≤ alo; omega)
        (fun j' hb => by show (0 : Nat) + blo ≤ j' + 1; omega) hinit
    · have h0 : ahi - alo = 0 := by omega
      rw [h0]
      exact hinit
  set st := flmScan a bj blo bhi (List.range' alo (ahi - alo)) (fun _ => 0)
    ⟨alo, blo, 0⟩ with hstdef
  have hL : FLMInv alo ahi blo bhi
      (extendLeft a b alo blo st.besti st.bestj st.bestsize) :=
    extendLeft_inv a b alo blo ahi bhi st.besti st.bestj st.bestsize hscan
  set stL := extendLeft a b alo blo st.besti st.bestj st.bestsize with hstL
  obtain ⟨l1, l2, l3, l4⟩ := hL
  have hR := extendRight_bounds a b ahi bhi stL.besti stL.bestj stL.bestsize
  have hRge := extendRight_ge a b ahi bhi stL.besti stL.bestj stL.bestsize
  simp only [find_longest_match, ← hstdef, ← hstL]
  refine ⟨l1, l2, ?_⟩
  intro hne
  rcases hR with h' | h'
  · rw [h'] at hne ⊢
    exact l4 hne
  · exact h'

/-! ### `get_matching_blocks` and `ratio`

`get_matching_blocks` pops `(alo, ahi, blo, bhi)` ranges off a queue,
finds the longest match in each, and pushes the two unmatched
remainders (left of the block on both sides, right of the block on
both sides) when non-empty.  `ratio()` only uses the TOTAL length `M`
of the matched blocks (the final `sort` of the block list and the
merging of adjacent blocks permute and coalesce blocks without
changing the total), so we model the total directly as `matchSum`. -/

/-- Worker for `matchSum`, structurally recursive on a fuel argument;
`matchSum` instantiates the fuel with the measure
`(ahi - alo) + (bhi - blo)`, which strictly decreases at each
recursive call (`flm_bounds`), so the `fuel = 0` fallback is never
reached — `matchSumGo_fuel` below proves the computed value does not
depend on the fuel once the fuel is at least the measure. -/
def matchSumGo (a b : List Char) (bj : Char → List Nat) :
    Nat → Nat → Nat → Nat → Nat → Nat
  | 0, _, _, _, _ => 0
  | fuel + 1, alo, ahi, blo, bhi =>
    if (find_longest_match a b bj alo ahi blo bhi).bestsize = 0 then 0
    else
      (find_longest_match a b bj alo ahi blo bhi).bestsize +
      (if alo < (find_longest_match a b bj alo ahi blo bhi).besti ∧
          blo < (find_longest_match a b bj alo ahi blo bhi).bestj then
        matchSumGo a b bj fuel alo
          (find_longest_match a b bj alo ahi blo bhi).besti
          blo (find_longest_match a b bj alo ahi blo bhi).bestj
      else 0) +
      (if (find_longest_match a b bj alo ahi blo bhi).besti +
            (find_longest_match a b bj alo ahi blo bhi).bestsize < ahi ∧
          (find_longest_match a b bj alo ahi blo bhi).bestj +
            (find_longest_match a b bj alo ahi blo bhi).bestsize < bhi then
        matchSumGo a b bj fuel
          ((find_longest_match a b bj alo ahi blo bhi).besti +
            (find_longest_match a b bj alo ahi blo bhi).bestsize) ahi
          ((find_longest_match a b bj alo ahi blo bhi).bestj +
            (find_longest_match a b bj alo ahi blo bhi).bestsize) bhi
      else 0)

/-- Total length of the matching blocks that the
`get_matching_blocks` recursion collects inside
`[alo, ahi) × [blo, bhi)`. -/
def matchSum (a b : List Char) (bj : Char → List Nat)
    (alo ahi blo bhi : Nat) : Nat :=
  matchSumGo a b bj ((ahi - alo) + (bhi - blo)) alo ahi blo bhi

/-- An empty `a`-range makes `find_longest_match` return the empty
block `(alo, blo, 0)`. -/
theorem flm_empty (a b : List Char) (bj : Char → List Nat)
    (alo ahi blo bhi : Nat) (h : ahi ≤ alo) :
    find_longest_match a b bj alo ahi blo bhi = ⟨alo, blo, 0⟩ := by
  have h0 : ahi - alo = 0 := by omega
  have hL : extendLeft a b alo blo alo blo 0 = (⟨alo, blo, 0⟩ : FLMState) :=
    extendLeft_stop a b alo blo alo blo 0 (fun hc => absurd hc.1 (by omega))
  have hR : extendRight a b ahi bhi alo blo 0 = 0 :=
    extendRight_stop a b ahi bhi alo blo 0 (fun hc => absurd hc.1 (by omega))
  simp only [find_longest_match, h0, List.range'_zero, flmScan, hL]
  rw [hR]

/-- One-step unfolding of `matchSumGo` at positive fuel. -/
theorem matchSumGo_unfold (a b : List Char) (bj : Char → List Nat)
    (fuel alo ahi blo bhi : Nat) :
    matchSumGo a b bj (fuel + 1) alo ahi blo bhi =
      (if (find_longest_match a b bj alo ahi blo bhi).bestsize = 0 then 0
      else
        (find_longest_match a b bj alo ahi blo bhi).bestsize +
        (if alo < (find_longest_match a b bj alo ahi blo bhi).besti ∧
            blo < (find_longest_match a b bj alo ahi blo bhi).bestj then
          matchSumGo a b bj fuel alo
            (find_longest_match a b bj alo ahi blo bhi).besti
            blo (find_longest_match a b bj alo ahi blo bhi).bestj
        else 0) +
        (if (find_longest_match a b bj alo ahi blo bhi).besti +
              (find_longest_match a b bj alo ahi blo bhi).bestsize < ahi ∧
            (find_longest_match a b bj alo ahi blo bhi).bestj +
              (find_longest_match a b bj alo ahi blo bhi).bestsize < bhi then
          matchSumGo a b bj fuel
            ((find_longest_match a b bj alo ahi blo bhi).besti +
              (find_longest_match a b bj alo ahi blo bhi).bestsize) ahi
            ((find_longest_match a b bj alo ahi blo bhi).bestj +
              (find_longest_match a b bj alo ahi blo bhi).bestsize) bhi
        else 0)) := by
  simp only [matchSumGo]

set_option maxHeartbeats 1600000 in
/-- One extra unit of fuel does not change `matchSumGo` once the fuel
reaches the measure `(ahi - alo) + (bhi - blo)`. -/
theorem matchSumGo_succ (a b : List Char) (bj : Char → List Nat) :
    ∀ (fuel alo ahi blo bhi : Nat),
    (ahi - alo) + (bhi - blo) ≤ fuel →
    matchSumGo a b bj (fuel + 1) alo ahi blo bhi =
      matchSumGo a b bj fuel alo ahi blo bhi := by
  intro fuel
  induction fuel with
  | zero =>
    intro alo ahi blo bhi hm
    have hle : ahi ≤ alo := by omega
    rw [matchSumGo_unfold, flm_empty a b bj alo ahi blo bhi hle]
    rfl
  | succ fuel ih =>
    intro alo ahi blo bhi hm
    obtain ⟨b1, b2, b3⟩ := flm_bounds a b bj alo ahi blo bhi
    by_cases hz : (find_longest_match a b bj alo ahi blo bhi).bestsize = 0
    · rw [matchSumGo_unfold, if_pos hz, matchSumGo_unfold, if_pos hz]
    · obtain ⟨hA, hB⟩ := b3 hz
      conv_lhs => rw [matchSumGo_unfold]
      conv_rhs => rw [matchSumGo_unfold]
      rw [if_neg hz, if_neg hz]
      congr 1
      · congr 1
        split
        · next hg =>
          exact ih alo (find_longest_match a b bj alo ahi blo bhi).besti blo
            (find_longest_match a b bj alo ahi blo bhi).bestj (by omega)
        · rfl
      · split
        · next hg =>
          exact ih ((find_longest_match a b bj alo ahi blo bhi).besti +
              (find_longest_match a b bj alo ahi blo bhi).bestsize) ahi
            ((find_longest_match a b bj alo ahi blo bhi).bestj +
              (find_longest_match a b bj alo ahi blo bhi).bestsize) bhi
            (by omega)
        · rfl

/-- `matchSumGo` is independent of the fuel once the fuel is at least
the measure: the `fuel = 0` fallback of the worker is never reached. -/
theorem matchSumGo_fuel (a b : List Char) (bj : Char → List Nat) :
    ∀ (fuel alo ahi blo bhi : Nat),
    (ahi - alo) + (bhi - blo) ≤ fuel →
    matchSumGo a b bj fuel alo ahi blo bhi =
      matchSum a b bj alo ahi blo bhi := by
  intro fuel
  induction fuel with
  | zero =>
    intro alo ahi blo bhi hm
    unfold matchSum
    have h0 : (ahi - alo) + (bhi - blo) = 0 := by omega
    rw [h0]
  | succ fuel ih =>
    intro alo ahi blo bhi hm
    rcases Nat.lt_or_ge fuel ((ahi - alo) + (bhi - blo)) with hlt | hge
    · unfold matchSum
      have hmeq : (ahi - alo) + (bhi - blo) = fuel + 1 := by omega
      rw [hmeq]
    · rw [matchSumGo_succ a b bj fuel alo ahi blo bhi hge]
      exact ih alo ahi blo bhi hge

/-- `difflib._calculate_ratio`: `2 * M / T`, or `1.0` when `T = 0`
(two empty sequences).  Python floats are modelled as exact rationals;
the rational is built with `mkRat` (which the kernel can evaluate),
and `calculate_ratio_eq_div` below shows this is the same value as
`2 * M / T`. -/
def calculate_ratio (nmatches totalLen : Nat) : ℚ :=
  if totalLen ≠ 0 then mkRat (2 * nmatches) totalLen else 1

theorem calculate_ratio_eq_div (nmatches totalLen : Nat) :
    calculate_ratio nmatches totalLen =
      if totalLen ≠ 0 then 2 * (nmatches : ℚ) / (totalLen : ℚ) else 1 := by
  unfold calculate_ratio
  split
  · rw [Rat.mkRat_eq_div]
    push_cast
    ring
  · rfl

/-- `SequenceMatcher(None, a, b).ratio()`. -/
def sequenceRatio (a b : List Char) : ℚ :=
  calculate_ratio (matchSum a b (b2j b) 0 a.length 0 b.length)
    (a.length + b.length)

/-- `compute_similarity` from `scripts/deduplicate.py`:
normalize both texts, then `SequenceMatcher(None, norm1, norm2).ratio()`. -/
def compute_similarity (text1 text2 : String) : ℚ :=
  sequenceRatio (normalize_text text1).toList (normalize_text text2).toList

/-! ### `compute_hash`

```python
normalized = normalize_text(content)
return hashlib.sha256(normalized.encode("utf-8")).hexdigest()
```

`hashlib.sha256` is modelled by a full FIPS 180-4 SHA-256
implementation over `Nat` (32-bit words represented as naturals below
`2^32`), and `.encode("utf-8")` by the standard UTF-8 encoding of the
string's unicode scalar values. -/

/-- Standard UTF-8 encoding of one unicode scalar value (1-4 bytes). -/
def utf8Bytes (c : Char) : List Nat :=
  let n := c.toNat
  if n < 0x80 then [n]
  else if n < 0x800 then [0xC0 + n / 0x40, 0x80 + n % 0x40]
  else if n < 0x10000 then
    [0xE0 + n / 0x1000, 0x80 + n / 0x40 % 0x40, 0x80 + n % 0x40]
  else
    [0xF0 + n / 0x40000, 0x80 + n / 0x1000 % 0x40, 0x80 + n / 0x40 % 0x40,
      0x80 + n % 0x40]

/-- `str.encode("utf-8")` as a byte list. -/
def utf8Encode (s : String) : List Nat := (s.toList.map utf8Bytes).flatten

/-- Truncation to a 32-bit word. -/
def w32 (n : Nat) : Nat := n % 4294967296

/-- 32-bit right rotation. -/
def rotr32 (x n : Nat) : Nat := w32 (x / 2 ^ n + x % 2 ^ n * 2 ^ (32 - n))

/-- 32-bit right shift. -/
def shr32 (x n : Nat) : Nat := x / 2 ^ n

def xor3 (x y z : Nat) : Nat := Nat.xor (Nat.xor x y) z

def bigSigma0 (x : Nat) : Nat := xor3 (rotr32 x 2) (rotr32 x 13) (rotr32 x 22)

def bigSigma1 (x : Nat) : Nat := xor3 (rotr32 x 6) (rotr32 x 11) (rotr32 x 25)

def smallSigma0 (x : Nat) : Nat := xor3 (rotr32 x 7) (rotr32 x 18) (shr32 x 3)

def smallSigma1 (x : Nat) : Nat := xor3 (rotr32 x 17) (rotr32 x 19) (shr32 x 10)

/-- SHA-256 `Ch(x, y, z)`; `NOT x` is `x XOR 0xFFFFFFFF` for `x < 2^32`. -/
def chWord (x y z : Nat) : Nat :=
  Nat.xor (Nat.land x y) (Nat.land (Nat.xor x 4294967295) z)

/-- SHA-256 `Maj(x, y, z)`. -/
def majWord (x y z : Nat) : Nat :=
  xor3 (Nat.land x y) (Nat.land x z) (Nat.land y z)

/-- Split a packed big-endian constant into `n` 32-bit words (most
significant word first). Used to state the FIPS 180-4 constant tables
compactly as single numerals. -/
def wordsOfPacked : Nat → Nat → List Nat
  | 0, _ => []
  | n + 1, x => wordsOfPacked n (x / 4294967296) ++ [x % 4294967296]

/-- The 64 SHA-256 round constants `K[0..63]` (FIPS 180-4 §4.2.2), packed
big-endian into one 2048-bit numeral, `K[0]` in the most significant word. -/
def shaK : List Nat :=
  wordsOfPacked 64 0x428a2f9871374491b5c0fbcfe9b5dba53956c25b59f111f1923f82a4ab1c5ed5d807aa9812835b01243185be550c7dc372be5d7480deb1fe9bdc06a7c19bf174e49b69c1efbe47860fc19dc6240ca1cc2de92c6f4a7484aa5cb0a9dc76f988da983e5152a831c66db00327c8bf597fc7c6e00bf3d5a7914706ca63511429296727b70a852e1b21384d2c6dfc53380d13650a7354766a0abb81c2c92e92722c85a2bfe8a1a81a664bc24b8b70c76c51a3d192e819d6990624f40e3585106aa07019a4c1161e376c082748774c34b0bcb5391c0cb34ed8aa4a5b9cca4f682e6ff3748f82ee78a5636f84c878148cc7020890befffaa4506cebbef9a3f7c67178f2

/-- The SHA-256 initial hash value `H(0)` (FIPS 180-4 §5.3.3), packed
big-endian into one 256-bit numeral, `H0` in the most significant word. -/
def shaH0 : List Nat :=
  wordsOfPacked 8 0x6a09e667bb67ae853c6ef372a54ff53a510e527f9b05688c1f83d9ab5be0cd19

/-- Big-endian byte decomposition (`n` bytes, most significant first). -/
def toBytesBE : Nat → Nat → List Nat
  | 0, _ => []
  | n + 1, x => toBytesBE n (x / 256) ++ [x % 256]

/-- SHA-256 padding: append `0x80`, zeros to 56 mod 64, then the
64-bit big-endian bit length. -/
def shaPad (msg : List Nat) : List Nat :=
  let padZeros := (64 + 56 - (msg.length + 1) % 64) % 64
  msg ++ [0x80] ++ List.replicate padZeros 0 ++ toBytesBE 8 (8 * msg.length)

/-- Group bytes into big-endian 32-bit words. -/
def bytesToWords : List Nat → List Nat
  | b0 :: b1 :: b2 :: b3 :: rest =>
    (((b0 * 256 + b1) * 256 + b2) * 256 + b3) :: bytesToWords rest
  | _ => []

/-- One step of the SHA-256 message-schedule extension. -/
def scheduleStep (w : List Nat) : List Nat :=
  let t := w.length
  w ++ [w32 (smallSigma1 (w.getD (t - 2) 0) + w.getD (t - 7) 0 +
    smallSigma0 (w.getD (t - 15) 0) + w.getD (t - 16) 0)]

/-- Iterate the message-schedule extension. -/
def schedule (w : List Nat) : Nat → List Nat
  | 0 => w
  | n + 1 => schedule (scheduleStep w) n

/-- One SHA-256 compression round on the 8-word working state. -/
def shaCompressStep (k w : Nat) : List Nat → List Nat
  | [a, b, c, d, e, f, g, h] =>
    let t1 := w32 (h + bigSigma1 e + chWord e f g + k + w)
    let t2 := w32 (bigSigma0 a + majWord a b c)
    [w32 (t1 + t2), a, b, c, w32 (d + t1), e, f, g]
  | l => l

/-- Compress one 64-byte block into the running hash state. -/
def shaCompressBlock (h : List Nat) (block : List Nat) : List Nat :=
  let w := schedule (bytesToWords block) 48
  let fin := (shaK.zip w).foldl (fun st kw => shaCompressStep kw.1 kw.2 st) h
  (h.zip fin).map (fun p => w32 (p.1 + p.2))

/-- Worker for `chunks64`: the fuel is an upper bound on the number of
chunks; each step removes at least one byte from a non-empty list, so
`l.length` is always sufficient fuel. -/
def chunks64Go : Nat → List Nat → List (List Nat)
  | 0, _ => []
  | _, [] => []
  | fuel + 1, x :: xs =>
    (x :: xs).take 64 :: chunks64Go fuel ((x :: xs).drop 64)

/-- Split into successive 64-byte chunks. -/
def chunks64 (l : List Nat) : List (List Nat) := chunks64Go l.length l

/-- SHA-256 digest of a byte string, as 8 words. -/
def sha256Words (msg : List Nat) : List Nat :=
  (chunks64 (shaPad msg)).foldl shaCompressBlock shaH0

/-- SHA-256 digest of a byte string, as 32 bytes. -/
def sha256Bytes (msg : List Nat) : List Nat :=
  ((sha256Words msg).map (toBytesBE 4)).flatten

/-- Lowercase hexadecimal digit. -/
def hexDigit (n : Nat) : Char := "0123456789abcdef".toList.getD n 'x'

/-- Two lowercase hex digits of one byte. -/
def byteToHex (b : Nat) : List Char := [hexDigit (b / 16), hexDigit (b % 16)]

/-- `bytes.hex()` / `hexdigest()`: lowercase hex of a byte string. -/
def hexOfBytes (bs : List Nat) : String := String.mk ((bs.map byteToHex).flatten)

/-- `compute_hash` from `scripts/deduplicate.py`. -/
def compute_hash (content : String) : String :=
  hexOfBytes (sha256Bytes (utf8Encode (normalize_text content)))

/-! ### Data model and `check_duplicate`

A submission record, as built by `load_submission`:
`{"path": filepath, "title": ..., "content": ..., "hash": compute_hash(content)}`.
The file path serves only as the record's identity (the code compares
`path.resolve()`; resolution is modelled as the identity on the opaque
path string). -/

structure Submission where
  path : String
  title : String
  content : String
  hash : String
deriving DecidableEq, Repr

/-- The three `reason` tags of `check_duplicate`.  In the Python code
these are the strings `"Exact content match"`,
`f"Similar title ({title_sim:.1%} match)"` and
`f"Similar content ({content_sim:.1%} match)"`; the score interpolated
into the text is carried separately in the `similarity` field. -/
inductive MatchReason
  | exactContentMatch
  | similarTitle
  | similarContent
deriving DecidableEq, Repr

/-- One entry of the `duplicates` list built by `check_duplicate`. -/
structure MatchResult where
  submission : Submission
  reason : MatchReason
  similarity : ℚ
deriving DecidableEq, Repr

/-- `TITLE_SIMILARITY_THRESHOLD = 0.8` (as the exact rational
`mkRat 4 5`; `title_threshold_eq` checks it equals `4 / 5`). -/
def TITLE_SIMILARITY_THRESHOLD : ℚ := mkRat 4 5

/-- `CONTENT_SIMILARITY_THRESHOLD = 0.6` (as the exact rational
`mkRat 3 5`; `content_threshold_eq` checks it equals `3 / 5`). -/
def CONTENT_SIMILARITY_THRESHOLD : ℚ := mkRat 3 5

theorem title_threshold_eq : TITLE_SIMILARITY_THRESHOLD = 4 / 5 := by
  unfold TITLE_SIMILARITY_THRESHOLD
  norm_num [Rat.mkRat_eq_div]

theorem content_threshold_eq : CONTENT_SIMILARITY_THRESHOLD = 3 / 5 := by
  unfold CONTENT_SIMILARITY_THRESHOLD
  norm_num [Rat.mkRat_eq_div]

/-- `MIN_CONTENT_LENGTH = 100`. -/
def MIN_CONTENT_LENGTH : Nat := 100

/-- The body of `check_duplicate`'s `for existing in existing_submissions`
loop: what (if anything) the iteration for `existing` appends to
`duplicates`.  The `continue` statements become the nested `if`
structure: self-path skip, then exact hash match, then title
similarity, then (guarded by the length minimum) content similarity. -/
def checkPair (new_submission existing : Submission) : Option MatchResult :=
  if existing.path = new_submission.path then none
  else if existing.hash = new_submission.hash then
    some ⟨existing, .exactContentMatch, 1⟩
  else
    let title_sim := compute_similarity new_submission.title existing.title
    if TITLE_SIMILARITY_THRESHOLD ≤ title_sim then
      some ⟨existing, .similarTitle, title_sim⟩
    else if MIN_CONTENT_LENGTH ≤ new_submission.content.length ∧
        MIN_CONTENT_LENGTH ≤ existing.content.length then
      let content_sim := compute_similarity new_submission.content existing.content
      if CONTENT_SIMILARITY_THRESHOLD ≤ content_sim then
        some ⟨existing, .similarContent, content_sim⟩
      else none
    else none

/-- One step of the stable descending sort modelling
`duplicates.sort(key=lambda x: x["similarity"], reverse=True)`:
insert `x` after every already-placed element whose similarity is at
least `x`'s (so that equal-similarity elements keep their original
relative order) and before the first strictly smaller one. -/
def insertDup (x : MatchResult) : List MatchResult → List MatchResult
  | [] => [x]
  | y :: ys =>
    if x.similarity ≤ y.similarity then y :: insertDup x ys
    else x :: y :: ys

/-- Stable sort by similarity descending.  Python's `list.sort` is a
stable sort; a stable descending sort is uniquely determined as a
function (`claim_C8` proves the output is a permutation, is sorted
descending, and preserves the input order inside every
equal-similarity class), so this stable insertion sort is the same
function as CPython's stable mergesort with
`key=lambda x: x["similarity"], reverse=True`. -/
def sortBySimilarity (l : List MatchResult) : List MatchResult :=
  l.foldl (fun acc x => insertDup x acc) []

/-- `check_duplicate` from `scripts/deduplicate.py`: collect at most
one match per existing record (in corpus order), stable-sort by
similarity descending, and report `is_duplicate = len(duplicates) > 0`. -/
def check_duplicate (new_submission : Submission)
    (existing_submissions : List Submission) : Bool × List MatchResult :=
  let duplicates :=
    sortBySimilarity (existing_submissions.filterMap (checkPair new_submission))
  (decide (0 < duplicates.length), duplicates)

theorem insertDup_perm (x : MatchResult) (l : List MatchResult) :
    (insertDup x l).Perm (x :: l) := by
  induction l with
  | nil => exact List.Perm.refl _
  | cons y ys ih =>
    unfold insertDup
    split
    · exact ((ih.cons y).trans (List.Perm.swap x y ys))
    · exact List.Perm.refl _

theorem sortBySimilarity_perm_aux (l : List MatchResult) :
    ∀ acc : List MatchResult,
    (l.foldl (fun acc x => insertDup x acc) acc).Perm (acc ++ l) := by
  induction l with
  | nil => intro acc; simp
  | cons x xs ih =>
    intro acc
    have h1 : (xs.foldl (fun acc x => insertDup x acc)
        (insertDup x acc)).Perm (insertDup x acc ++ xs) := ih (insertDup x acc)
    have h2 : (insertDup x acc ++ xs).Perm ((x :: acc) ++ xs) :=
      (insertDup_perm x acc).append_right xs
    have h3 : ((x :: acc) ++ xs).Perm (acc ++ x :: xs) := by
      simpa using List.perm_middle.symm
    exact (h1.trans h2).trans h3

theorem sortBySimilarity_perm (l : List MatchResult) :
    (sortBySimilarity l).Perm l := by
  simpa using sortBySimilarity_perm_aux l []

/-! ### The batch runner `check_submissions_for_duplicates`

The filesystem boundary (`frontmatter.load` inside `load_submission`,
and the `submissions/**/*.md` glob of `find_all_submissions`) is
modelled by an explicit loader `load : String → Option Submission`
applied to an explicit list of corpus paths: `load p = none` models a
file that fails to load (for which `load_submission` returns `None`
after printing a warning). -/

/-- Per-file status recorded in the `results` dict:
`{"status": "error"}`, `{"status": "unique"}`, or
`{"status": "duplicate", "duplicates": [...]}`. -/
inductive FileResult
  | loadError
  | unique
  | duplicate (duplicates : List MatchResult)
deriving DecidableEq, Repr

/-- `find_all_submissions`: load every corpus file, silently dropping
the ones that fail to load (`if sub: submissions.append(sub)`). -/
def find_all_submissions (load : String → Option Submission)
    (corpus_paths : List String) : List Submission :=
  corpus_paths.filterMap load

/-- Python `dict` insertion: overwrite in place if the key is present,
else append. -/
def dictInsert (k : String) (v : FileResult) :
    List (String × FileResult) → List (String × FileResult)
  | [] => [(k, v)]
  | (k', v') :: rest =>
    if k' = k then (k, v) :: rest else (k', v') :: dictInsert k v rest

/-- The body of the `for filepath in new_files` loop of
`check_submissions_for_duplicates`: update `(has_duplicates, results)`
for one new file. -/
def batchStep (all_submissions : List Submission)
    (load : String → Option Submission)
    (acc : Bool × List (String × FileResult)) (filepath : String) :
    Bool × List (String × FileResult) :=
  match load filepath with
  | none => (acc.1, dictInsert filepath .loadError acc.2)
  | some new_sub =>
    let r := check_duplicate new_sub all_submissions
    if r.1 then (true, dictInsert filepath (.duplicate r.2) acc.2)
    else (acc.1, dictInsert filepath .unique acc.2)

/-- `check_submissions_for_duplicates`: load the corpus once, then fold
over the new files, recording `loadError` for files that fail to load
and otherwise the result of `check_duplicate` against the corpus. -/
def check_submissions_for_duplicates (load : String → Option Submission)
    (new_files : List String) (corpus_paths : List String) :
    Bool × List (String × FileResult) :=
  let all_submissions := find_all_submissions load corpus_paths
  new_files.foldl (batchStep all_submissions load) (false, [])

/-- The outcome `check_submissions_for_duplicates` assigns to one new
file, as a function of that file's own load result and of the
pre-loaded corpus only. -/
def fileOutcome (load : String → Option Submission)
    (corpus : List Submission) (filepath : String) : FileResult :=
  match load filepath with
  | none => .loadError
  | some new_sub =>
    let r := check_duplicate new_sub corpus
    if r.1 then .duplicate r.2 else .unique

/-! ## Claim theorems -/

/-- C5: for every pair of records with distinct identities and equal
content hash, the comparison loop records exactly one `MatchResult` for
the pair — reason `exactContentMatch`, similarity exactly `1` — never a
title or content match (the universal quantification over arbitrary
`title`/`content` fields shows neither similarity influences the
outcome), and when the existing record is in the corpus this match
appears in `check_duplicate`'s output. -/
theorem claim_C5_exact_match_precedence
    (new_submission existing : Submission)
    (existing_submissions : List Submission)
    (hpath : existing.path ≠ new_submission.path)
    (hhash : existing.hash = new_submission.hash) :
    checkPair new_submission existing =
      some ⟨existing, MatchReason.exactContentMatch, 1⟩ ∧
    (existing ∈ existing_submissions →
      (⟨existing, MatchReason.exactContentMatch, 1⟩ : MatchResult) ∈
        (check_duplicate new_submission existing_submissions).2) := by
  have hpair : checkPair new_submission existing =
      some ⟨existing, MatchReason.exactContentMatch, 1⟩ := by
    simp [checkPair, hpath, hhash]
  refine ⟨hpair, fun hmem => ?_⟩
  have hin : (⟨existing, MatchReason.exactContentMatch, 1⟩ : MatchResult) ∈
      existing_submissions.filterMap (checkPair new_submission) := by
    exact List.mem_filterMap.mpr ⟨existing, hmem, hpair⟩
  simpa [check_duplicate] using
    ((sortBySimilarity_perm
      (existing_submissions.filterMap (checkPair new_submission))).mem_iff).mpr
      hin

set_option maxRecDepth 8000 in
theorem claim_C5_exact_match_precedence_witness :
    let newSub : Submission :=
      ⟨"submissions/new.md", "A Title", "Shared body text.",
        compute_hash "Shared body text."⟩
    let oldSub : Submission :=
      ⟨"submissions/old.md", "A Completely Different Title",
        "shared BODY text!!", compute_hash "shared BODY text!!"⟩
    oldSub.path ≠ newSub.path ∧ oldSub.hash = newSub.hash ∧
    checkPair newSub oldSub =
      some ⟨oldSub, MatchReason.exactContentMatch, 1⟩ ∧
    (⟨oldSub, MatchReason.exactContentMatch, 1⟩ : MatchResult) ∈
      (check_duplicate newSub [oldSub]).2 := by
  intro newSub oldSub
  have hpath : oldSub.path ≠ newSub.path := by decide
  have hhash : oldSub.hash = newSub.hash := by decide
  have h := claim_C5_exact_match_precedence newSub oldSub [oldSub] hpath hhash
  exact ⟨hpath, hhash, h.1, h.2 (by decide)⟩

/-- C6: for a pair with distinct identities and unequal hashes, a
`similarTitle` match carrying the computed title score is recorded
exactly when the title similarity reaches the 0.8 threshold (with
equality counting as a match), and a recorded title match is the whole
outcome for the pair (the content fields are universally quantified,
so content similarity does not influence it); below the threshold no
`similarTitle` match can be recorded. -/
theorem claim_C6_title_threshold (new_submission existing : Submission)
    (hpath : existing.path ≠ new_submission.path)
    (hhash : existing.hash ≠ new_submission.hash) :
    (TITLE_SIMILARITY_THRESHOLD ≤
        compute_similarity new_submission.title existing.title →
      checkPair new_submission existing =
        some ⟨existing, MatchReason.similarTitle,
          compute_similarity new_submission.title existing.title⟩) ∧
    (compute_similarity new_submission.title existing.title <
        TITLE_SIMILARITY_THRESHOLD →
      ∀ r : MatchResult, checkPair new_submission existing = some r →
        r.reason ≠ MatchReason.similarTitle) := by
  constructor
  · intro ht
    simp [checkPair, hpath, hhash, ht]
  · intro ht r hr
    have hnt : ¬ TITLE_SIMILARITY_THRESHOLD ≤
        compute_similarity new_submission.title existing.title := not_le.mpr ht
    simp only [checkPair, if_neg hpath, if_neg hhash, if_neg hnt] at hr
    split at hr
    · split at hr
      · cases hr
        simp
      · exact absurd hr (by simp)
    · exact absurd hr (by simp)

theorem claim_C6_title_threshold_witness :
    let newSub : Submission := ⟨"submissions/a.md", "ab", "", "h1"⟩
    let oldSub : Submission := ⟨"submissions/b.md", "abc", "", "h2"⟩
    oldSub.path ≠ newSub.path ∧ oldSub.hash ≠ newSub.hash ∧
    compute_similarity newSub.title oldSub.title =
      TITLE_SIMILARITY_THRESHOLD ∧
    checkPair newSub oldSub =
      some ⟨oldSub, MatchReason.similarTitle, TITLE_SIMILARITY_THRESHOLD⟩ := by
  intro newSub oldSub
  have h := claim_C6_title_threshold newSub oldSub (by decide) (by decide)
  refine ⟨by decide, by decide, by decide, ?_⟩
  rw [h.1 (by decide),
    show compute_similarity newSub.title oldSub.title =
      TITLE_SIMILARITY_THRESHOLD from by decide]

/-- C7: content similarity can only ever be the recorded reason when
both records' contents have length at least `MIN_CONTENT_LENGTH`
(= 100); and when hash and title checks have already failed, a pair
with either content shorter than 100 produces no match at all. -/
theorem claim_C7_short_content_exemption (new_submission existing : Submission)
    (hpath : existing.path ≠ new_submission.path)
    (hhash : existing.hash ≠ new_submission.hash) :
    (∀ r : MatchResult, checkPair new_submission existing = some r →
      r.reason = MatchReason.similarContent →
      MIN_CONTENT_LENGTH ≤ new_submission.content.length ∧
      MIN_CONTENT_LENGTH ≤ existing.content.length) ∧
    (compute_similarity new_submission.title existing.title <
        TITLE_SIMILARITY_THRESHOLD →
      ¬ (MIN_CONTENT_LENGTH ≤ new_submission.content.length ∧
        MIN_CONTENT_LENGTH ≤ existing.content.length) →
      checkPair new_submission existing = none) := by
  constructor
  · intro r hr hreason
    simp only [checkPair, if_neg hpath, if_neg hhash] at hr
    split at hr
    · cases hr
      exact absurd hreason (by simp)
    · split at hr
      · next hlen =>
        split at hr
        · exact hlen
        · exact absurd hr (by simp)
      · exact absurd hr (by simp)
  · intro ht hlen
    have hnt : ¬ TITLE_SIMILARITY_THRESHOLD ≤
        compute_similarity new_submission.title existing.title := not_le.mpr ht
    simp [checkPair, hpath, hhash, hnt, hlen]

theorem claim_C7_short_content_exemption_witness :
    let newSub : Submission :=
      ⟨"submissions/a.md", "first title",
        String.mk (List.replicate 50 'a'), "h1"⟩
    let oldSub : Submission :=
      ⟨"submissions/b.md", "something else entirely",
        String.mk (List.replicate 50 'b'), "h2"⟩
    newSub.content.length = 50 ∧ oldSub.content.length = 50 ∧
    compute_similarity newSub.title oldSub.title <
      TITLE_SIMILARITY_THRESHOLD ∧
    checkPair newSub oldSub = none := by
  intro newSub oldSub
  have h := claim_C7_short_content_exemption newSub oldSub
    (by decide) (by decide)
  exact ⟨by decide, by decide, by decide, h.2 (by decide) (by decide)⟩

/-- C10: the 100-character minimum is measured on the raw `content`
strings, before any normalization: once hash and title checks have
failed, the content comparison happens exactly when both raw lengths
reach 100 — the normalized lengths are irrelevant (nothing in the
statement constrains them, and the witness exercises a pair whose
normalized contents have length 2) — and a record with raw content
shorter than 100 is exempt even when normalization would not shrink
it. -/
theorem claim_C10_raw_length_gate (new_submission existing : Submission)
    (hpath : existing.path ≠ new_submission.path)
    (hhash : existing.hash ≠ new_submission.hash)
    (htitle : compute_similarity new_submission.title existing.title <
      TITLE_SIMILARITY_THRESHOLD) :
    (MIN_CONTENT_LENGTH ≤ new_submission.content.length →
      MIN_CONTENT_LENGTH ≤ existing.content.length →
      checkPair new_submission existing =
        (if CONTENT_SIMILARITY_THRESHOLD ≤
            compute_similarity new_submission.content existing.content then
          some ⟨existing, MatchReason.similarContent,
            compute_similarity new_submission.content existing.content⟩
        else none)) ∧
    (new_submission.content.length < MIN_CONTENT_LENGTH →
      checkPair new_submission existing = none) := by
  have hnt : ¬ TITLE_SIMILARITY_THRESHOLD ≤
      compute_similarity new_submission.title existing.title := not_le.mpr htitle
  constructor
  · intro h1 h2
    simp [checkPair, hpath, hhash, hnt, h1, h2]
  · intro h1
    have : ¬ (MIN_CONTENT_LENGTH ≤ new_submission.content.length ∧
        MIN_CONTENT_LENGTH ≤ existing.content.length) := by
      intro hc
      omega
    simp [checkPair, hpath, hhash, hnt, this]

theorem claim_C10_raw_length_gate_witness :
    let pad : String := String.mk (List.replicate 98 '.')
    let newSub : Submission :=
      ⟨"submissions/a.md", "first title", "ab" ++ pad, "h1"⟩
    let oldSub : Submission :=
      ⟨"submissions/b.md", "something else entirely", pad ++ "ab", "h2"⟩
    let shortSub : Submission :=
      ⟨"submissions/c.md", "first title",
        String.mk (List.replicate 50 'a'), "h3"⟩
    newSub.content.length = 100 ∧
    (normalize_text newSub.content).length = 2 ∧
    oldSub.content.length = 100 ∧
    (normalize_text oldSub.content).length = 2 ∧
    checkPair newSub oldSub =
      some ⟨oldSub, MatchReason.similarContent, 1⟩ ∧
    normalize_text shortSub.content = shortSub.content ∧
    checkPair shortSub oldSub = none := by
  intro pad newSub oldSub shortSub
  have h1 := claim_C10_raw_length_gate newSub oldSub
    (by decide) (by decide) (by decide)
  have h2 := claim_C10_raw_length_gate shortSub oldSub
    (by decide) (by decide) (by decide)
  refine ⟨by decide, by decide, by decide, by decide, ?_, by decide,
    h2.2 (by decide)⟩
  rw [h1.1 (by decide) (by decide)]
  decide

/-- C2 counterexample: `compute_similarity` is not symmetric.  On the
(already normalized) titles `"tide"` and `"diet"` the greedy
tie-breaking of `find_longest_match` matches only the single `'t'`
when `a = "tide"` (leaving remainders on opposite sides that cannot
both recurse), but matches `'d'` and then `'e'` when `a = "diet"` —
giving ratios `2·1/8 = 1/4` and `2·2/8 = 1/2`. -/
theorem claim_C2_symmetry_counterexample :
    compute_similarity "tide" "diet" = mkRat 1 4 ∧
    compute_similarity "diet" "tide" = mkRat 1 2 ∧
    compute_similarity "tide" "diet" ≠ compute_similarity "diet" "tide" := by
  refine ⟨by decide, by decide, by decide⟩

/-- C2 (amended): the scorer is symmetric whenever the two texts have
equal normalized forms (both calls then compute the ratio of the same
pair); for texts with different normalized forms the two orders can
disagree (see the counterexample). -/
theorem claim_C2_symmetry_amended (A B : String)
    (h : normalize_text A = normalize_text B) :
    compute_similarity A B = compute_similarity B A := by
  unfold compute_similarity
  rw [h]

theorem claim_C2_symmetry_amended_witness :
    normalize_text "  Hello,   WORLD!! " = normalize_text "hello world" ∧
    compute_similarity "  Hello,   WORLD!! " "hello world" =
      compute_similarity "hello world" "  Hello,   WORLD!! " :=
  ⟨by decide, claim_C2_symmetry_amended _ _ (by decide)⟩

/-- A match total of zero at the top of the recursion means a zero
`matchSum`. -/
theorem matchSum_zero (a b : List Char) (bj : Char → List Nat)
    (alo ahi blo bhi : Nat)
    (h : (find_longest_match a b bj alo ahi blo bhi).bestsize = 0) :
    matchSum a b bj alo ahi blo bhi = 0 := by
  unfold matchSum
  cases hf : (ahi - alo) + (bhi - blo) with
  | zero => rfl
  | succ f => rw [matchSumGo_unfold, if_pos h]

/-- The scan does nothing when every position list of `b2j` is
empty. -/
theorem flmScan_empty_bj (a : List Char) (bj : Char → List Nat)
    (blo bhi : Nat) (hbj : ∀ c, bj c = []) :
    ∀ (is : List Nat) (row : Nat → Nat) (st : FLMState),
    flmScan a bj blo bhi is row st = st := by
  intro is
  induction is with
  | nil => intro row st; rfl
  | cons i is ih =>
    intro row st
    simp only [flmScan, hbj, flmInner]
    exact ih _ _

/-- Matching any sequence against the empty sequence finds no
blocks. -/
theorem flm_nil_right (a : List Char) (ahi : Nat) :
    find_longest_match a [] (b2j []) 0 ahi 0 0 = ⟨0, 0, 0⟩ := by
  have hbj : ∀ c, b2j ([] : List Char) c = [] := fun c => rfl
  unfold find_longest_match
  rw [flmScan_empty_bj a (b2j []) 0 0 hbj]
  have hR : extendRight a [] ahi 0 0 0 0 = 0 := by
    unfold extendRight
    cases hc : ahi - (0 + 0) with
    | zero => rfl
    | succ n =>
      simp only [extendRightGo]
      rw [if_neg]
      intro hg
      exact absurd hg.1 (by omega)
  simp only [extendLeft]
  rw [hR]

/-- A string whose character list is empty is the empty string. -/
theorem string_toList_nil {s : String} (h : s.toList = []) : s = "" := by
  cases s with
  | mk data =>
    simp only [String.toList] at h
    subst h
    rfl

/-- `SequenceMatcher(None, "", b).ratio()` is `1` against the empty
sequence (by `_calculate_ratio`'s zero-length case) and `0`
otherwise. -/
theorem sequenceRatio_nil_left (l : List Char) :
    sequenceRatio [] l = if l = [] then 1 else 0 := by
  unfold sequenceRatio
  have hms : matchSum [] l (b2j l) 0 ([] : List Char).length 0 l.length = 0 := by
    apply matchSum_zero
    rw [show ([] : List Char).length = 0 from rfl,
      flm_empty [] l (b2j l) 0 0 0 l.length (Nat.le_refl 0)]
  rw [hms]
  cases l with
  | nil => rfl
  | cons c cs =>
    rw [if_neg (by simp)]
    unfold calculate_ratio
    rw [if_pos (by simp)]
    simp [Rat.mkRat_eq_div]

/-- `SequenceMatcher(None, a, "").ratio()`, the mirror-image case. -/
theorem sequenceRatio_nil_right (l : List Char) :
    sequenceRatio l [] = if l = [] then 1 else 0 := by
  unfold sequenceRatio
  have hms : matchSum l [] (b2j []) 0 l.length 0 ([] : List Char).length = 0 := by
    apply matchSum_zero
    rw [show ([] : List Char).length = 0 from rfl, flm_nil_right l l.length]
  rw [hms]
  cases l with
  | nil => rfl
  | cons c cs =>
    rw [if_neg (by simp)]
    unfold calculate_ratio
    rw [if_pos (by simp)]
    simp [Rat.mkRat_eq_div]

/-- C1 (amended): the checker is a total function that records at most
one match per existing record; a title whose normalized form is empty
scores similarity `0` against any title with a non-empty normalized
form (in both argument orders), and so cannot reach the `0.8`
threshold; BUT a pair of records whose titles BOTH normalize to the
empty string scores `1.0` (the `T = 0` case of `_calculate_ratio`),
so with differing content hashes such a pair IS recorded as a
`similarTitle` match with similarity `1.0` — the original claim's
"never recorded as a SimilarTitle match" fails on exactly this case
(see the counterexample). -/
theorem claim_C1_amended :
    (∀ (new_submission : Submission)
      (existing_submissions : List Submission),
      (check_duplicate new_submission existing_submissions).2.length ≤
        existing_submissions.length) ∧
    (∀ A B : String, normalize_text A = "" → normalize_text B ≠ "" →
      compute_similarity A B = 0 ∧ compute_similarity B A = 0) ∧
    (∀ new_submission existing : Submission,
      existing.path ≠ new_submission.path →
      existing.hash ≠ new_submission.hash →
      normalize_text new_submission.title = "" →
      normalize_text existing.title = "" →
      checkPair new_submission existing =
        some ⟨existing, MatchReason.similarTitle, 1⟩) := by
  refine ⟨?_, ?_, ?_⟩
  · intro new_submission existing_submissions
    unfold check_duplicate
    calc (sortBySimilarity (existing_submissions.filterMap
            (checkPair new_submission))).length
        = (existing_submissions.filterMap
            (checkPair new_submission)).length :=
          (sortBySimilarity_perm _).length_eq
      _ ≤ existing_submissions.length := List.length_filterMap_le _ _
  · intro A B hA hB
    have hBl : (normalize_text B).toList ≠ [] := fun h => hB (string_toList_nil h)
    constructor
    · unfold compute_similarity
      rw [hA]
      rw [show ("" : String).toList = [] from rfl]
      rw [sequenceRatio_nil_left, if_neg hBl]
    · unfold compute_similarity
      rw [hA]
      rw [show ("" : String).toList = [] from rfl]
      rw [sequenceRatio_nil_right, if_neg hBl]
  · intro new_submission existing hpath hhash hnew hex
    have hsim : compute_similarity new_submission.title existing.title = 1 := by
      unfold compute_similarity
      rw [hnew, hex]
      rfl
    have hth1 : TITLE_SIMILARITY_THRESHOLD ≤ (1 : ℚ) := by decide
    simp [checkPair, hpath, hhash, hsim, hth1]

theorem claim_C1_amended_witness :
    let newSub : Submission := ⟨"submissions/new.md", "", "alpha", "h1"⟩
    let oldSub : Submission := ⟨"submissions/old.md", "", "beta", "h2"⟩
    (check_duplicate newSub [oldSub]).2.length ≤ 1 ∧
    (compute_similarity "" "Some Title" = 0 ∧
      compute_similarity "Some Title" "" = 0) ∧
    checkPair newSub oldSub =
      some ⟨oldSub, MatchReason.similarTitle, 1⟩ := by
  intro newSub oldSub
  refine ⟨claim_C1_amended.1 newSub [oldSub], ?_, ?_⟩
  · exact claim_C1_amended.2.1 "" "Some Title" (by decide) (by decide)
  · exact claim_C1_amended.2.2 newSub oldSub (by decide) (by decide)
      (by decide) (by decide)

set_option maxRecDepth 8000 in
/-- C1 counterexample: two records with empty titles and different
content hashes (here the real hashes of their different contents).
`check_duplicate` records a `similarTitle` match with similarity `1.0`
for the pair, because `SequenceMatcher(None, "", "").ratio()` is `1.0`
— refuting "a pair of records whose titles are both empty and whose
content hashes differ is never recorded as a SimilarTitle match", and
with it the blanket "empty title ... yields low/zero similarity". -/
theorem claim_C1_counterexample :
    let newSub : Submission :=
      ⟨"submissions/new.md", "", "alpha", compute_hash "alpha"⟩
    let oldSub : Submission :=
      ⟨"submissions/old.md", "", "beta", compute_hash "beta"⟩
    newSub.title = "" ∧ oldSub.title = "" ∧ oldSub.hash ≠ newSub.hash ∧
    (check_duplicate newSub [oldSub]).2 =
      [⟨oldSub, MatchReason.similarTitle, 1⟩] := by
  intro newSub oldSub
  exact ⟨rfl, rfl, by decide, by decide⟩

/-! ### Shape of the SHA-256 hex digest (helpers for C9) -/

theorem toBytesBE_length (n : Nat) : ∀ x, (toBytesBE n x).length = n := by
  induction n with
  | zero => intro x; rfl
  | succ n ih => intro x; simp [toBytesBE, ih]

theorem toBytesBE_lt (n : Nat) : ∀ x, ∀ b ∈ toBytesBE n x, b < 256 := by
  induction n with
  | zero => intro x b hb; cases hb
  | succ n ih =>
    intro x b hb
    simp only [toBytesBE, List.mem_append, List.mem_singleton] at hb
    rcases hb with hb | hb
    · exact ih _ b hb
    · subst hb
      exact Nat.mod_lt _ (by omega)

theorem shaCompressStep_length (k w : Nat) (l : List Nat) :
    (shaCompressStep k w l).length = l.length := by
  unfold shaCompressStep
  split
  · rfl
  · rfl

theorem shaRounds_length (l : List (Nat × Nat)) :
    ∀ st : List Nat,
    (l.foldl (fun s kw => shaCompressStep kw.1 kw.2 s) st).length =
      st.length := by
  induction l with
  | nil => intro st; rfl
  | cons kw l ih =>
    intro st
    rw [List.foldl_cons, ih, shaCompressStep_length]

theorem shaCompressBlock_length (h block : List Nat) :
    (shaCompressBlock h block).length = h.length := by
  unfold shaCompressBlock
  rw [List.length_map, List.length_zip, shaRounds_length]
  omega

theorem sha256Words_length (msg : List Nat) : (sha256Words msg).length = 8 := by
  unfold sha256Words
  generalize chunks64 (shaPad msg) = cs
  have aux : ∀ (cs : List (List Nat)) (st : List Nat),
      (cs.foldl shaCompressBlock st).length = st.length := by
    intro cs
    induction cs with
    | nil => intro st; rfl
    | cons c cs ih =>
      intro st
      rw [List.foldl_cons, ih, shaCompressBlock_length]
  exact aux cs shaH0

theorem sha256Bytes_length (msg : List Nat) :
    (sha256Bytes msg).length = 32 := by
  unfold sha256Bytes
  have aux : ∀ ws : List Nat,
      ((ws.map (toBytesBE 4)).flatten).length = 4 * ws.length := by
    intro ws
    induction ws with
    | nil => rfl
    | cons w ws ih => simp [ih, toBytesBE_length]; omega
  rw [aux, sha256Words_length]

theorem sha256Bytes_lt (msg : List Nat) :
    ∀ b ∈ sha256Bytes msg, b < 256 := by
  unfold sha256Bytes
  intro b hb
  simp only [List.mem_flatten, List.mem_map] at hb
  obtain ⟨bytes, ⟨w, hw, rfl⟩, hb⟩ := hb
  exact toBytesBE_lt 4 w b hb

theorem hexDigit_mem (n : Nat) (h : n < 16) :
    hexDigit n ∈ "0123456789abcdef".toList := by
  interval_cases n <;> decide

theorem hexOfBytes_toList (bs : List Nat) :
    (hexOfBytes bs).toList = (bs.map byteToHex).flatten := rfl

theorem hexOfBytes_length_aux :
    ∀ bs : List Nat, ((bs.map byteToHex).flatten).length = 2 * bs.length := by
  intro bs
  induction bs with
  | nil => rfl
  | cons b bs ih =>
    simp only [List.map_cons, List.flatten_cons, List.length_append, ih,
      List.length_cons]
    rw [show (byteToHex b).length = 2 from rfl]
    omega

theorem hexOfBytes_length (bs : List Nat) :
    (hexOfBytes bs).length = 2 * bs.length := by
  have h1 : (hexOfBytes bs).length = ((bs.map byteToHex).flatten).length := rfl
  rw [h1, hexOfBytes_length_aux]

/-- C9: `compute_hash(text)` is the lowercase-hexadecimal SHA-256
digest of `normalize_text(text)` (definitionally, over the modelled
SHA-256 and UTF-8 encoder); it is a pure function, so two texts with
equal normalized forms hash identically regardless of load order or
path; and the digest is a 64-character string drawn from the lowercase
hex alphabet. -/
theorem claim_C9_hash_contract :
    (∀ T : String, compute_hash T =
      hexOfBytes (sha256Bytes (utf8Encode (normalize_text T)))) ∧
    (∀ T1 T2 : String, normalize_text T1 = normalize_text T2 →
      compute_hash T1 = compute_hash T2) ∧
    (∀ T : String, ∀ c ∈ (compute_hash T).toList,
      c ∈ "0123456789abcdef".toList) ∧
    (∀ T : String, (compute_hash T).length = 64) := by
  refine ⟨fun T => rfl, ?_, ?_, ?_⟩
  · intro T1 T2 h
    unfold compute_hash
    rw [h]
  · intro T c hc
    unfold compute_hash at hc
    rw [hexOfBytes_toList] at hc
    simp only [List.mem_flatten, List.mem_map] at hc
    obtain ⟨chars, ⟨bb, hbb, rfl⟩, hc⟩ := hc
    have hlt := sha256Bytes_lt (utf8Encode (normalize_text T)) bb hbb
    simp only [byteToHex, List.mem_cons, List.mem_singleton,
      List.not_mem_nil, or_false] at hc
    rcases hc with hc | hc
    · subst hc
      exact hexDigit_mem _ (by omega)
    · subst hc
      exact hexDigit_mem _ (Nat.mod_lt _ (by omega))
  · intro T
    unfold compute_hash
    rw [hexOfBytes_length, sha256Bytes_length]

theorem claim_C9_hash_contract_witness :
    normalize_text "Hello,   World!" = normalize_text "hello world" ∧
    "Hello,   World!" ≠ "hello world" ∧
    compute_hash "Hello,   World!" = compute_hash "hello world" :=
  ⟨by decide, by decide, claim_C9_hash_contract.2.1 _ _ (by decide)⟩

/-! ### Sortedness and stability of `duplicates.sort` (helpers for C8) -/

theorem insertDup_sorted (x : MatchResult) (l : List MatchResult)
    (h : l.Pairwise (fun a b => b.similarity ≤ a.similarity)) :
    (insertDup x l).Pairwise (fun a b => b.similarity ≤ a.similarity) := by
  induction l with
  | nil => simp [insertDup]
  | cons y ys ih =>
    rw [List.pairwise_cons] at h
    obtain ⟨hy, hys⟩ := h
    unfold insertDup
    split
    · next hle =>
      rw [List.pairwise_cons]
      refine ⟨?_, ih hys⟩
      intro z hz
      have hz' := (insertDup_perm x ys).mem_iff.mp hz
      rcases List.mem_cons.mp hz' with rfl | hz''
      · exact hle
      · exact hy z hz''
    · next hlt =>
      rw [List.pairwise_cons]
      refine ⟨?_, List.pairwise_cons.mpr ⟨hy, hys⟩⟩
      intro z hz
      rcases List.mem_cons.mp hz with rfl | hz'
      · exact le_of_lt (not_le.mp hlt)
      · exact le_trans (hy z hz') (le_of_lt (not_le.mp hlt))

theorem sortBySimilarity_sorted (l : List MatchResult) :
    (sortBySimilarity l).Pairwise
      (fun a b => b.similarity ≤ a.similarity) := by
  have aux : ∀ (l acc : List MatchResult),
      acc.Pairwise (fun a b => b.similarity ≤ a.similarity) →
      (l.foldl (fun acc x => insertDup x acc) acc).Pairwise
        (fun a b => b.similarity ≤ a.similarity) := by
    intro l
    induction l with
    | nil => intro acc hacc; exact hacc
    | cons x xs ih =>
      intro acc hacc
      exact ih (insertDup x acc) (insertDup_sorted x acc hacc)
  exact aux l [] List.Pairwise.nil

theorem insertDup_filter (x : MatchResult) (l : List MatchResult) (q : ℚ)
    (h : l.Pairwise (fun a b => b.similarity ≤ a.similarity)) :
    (insertDup x l).filter (fun r => r.similarity = q) =
      l.filter (fun r => r.similarity = q) ++
        (if x.similarity = q then [x] else []) := by
  induction l with
  | nil =>
    simp only [insertDup, List.filter_nil, List.nil_append]
    rw [List.filter_cons, List.filter_nil]
    split
    · next hx =>
      rw [if_pos (by simpa using hx)]
    · next hx =>
      rw [if_neg (by simpa using hx)]
  | cons y ys ih =>
    rw [List.pairwise_cons] at h
    obtain ⟨hy, hys⟩ := h
    unfold insertDup
    split
    · next hle =>
      rw [List.filter_cons, List.filter_cons]
      by_cases hyq : y.similarity = q
      · rw [if_pos (by simpa using hyq), if_pos (by simpa using hyq)]
        rw [ih hys, List.cons_append]
      · rw [if_neg (by simpa using hyq), if_neg (by simpa using hyq)]
        exact ih hys
    · next hlt =>
      rw [List.filter_cons]
      by_cases hxq : x.similarity = q
      · rw [if_pos (by simpa using hxq), if_pos hxq]
        have hempty : (y :: ys).filter (fun r => r.similarity = q) = [] := by
          rw [List.filter_eq_nil_iff]
          intro z hz
          have hzy : z.similarity ≤ y.similarity := by
            rcases List.mem_cons.mp hz with rfl | hz'
            · exact le_refl _
            · exact hy z hz'
          have hylt : y.similarity < x.similarity := not_le.mp hlt
          simp only [decide_eq_true_eq]
          intro hzq
          rw [hzq] at hzy
          rw [hxq] at hylt
          exact absurd (lt_of_le_of_lt hzy hylt) (lt_irrefl q)
        rw [hempty]
        rfl
      · rw [if_neg (by simpa using hxq), if_neg hxq]
        simp

theorem sortBySimilarity_filter (l : List MatchResult) (q : ℚ) :
    (sortBySimilarity l).filter (fun r => r.similarity = q) =
      l.filter (fun r => r.similarity = q) := by
  have aux : ∀ (l acc : List MatchResult),
      acc.Pairwise (fun a b => b.similarity ≤ a.similarity) →
      (l.foldl (fun acc x => insertDup x acc) acc).filter
          (fun r => r.similarity = q) =
        acc.filter (fun r => r.similarity = q) ++
          l.filter (fun r => r.similarity = q) := by
    intro l
    induction l with
    | nil => intro acc hacc; simp
    | cons x xs ih =>
      intro acc hacc
      rw [List.foldl_cons,
        ih (insertDup x acc) (insertDup_sorted x acc hacc),
        insertDup_filter x acc q hacc, List.filter_cons]
      by_cases hxq : x.similarity = q
      · rw [if_pos hxq, if_pos (by simpa using hxq), List.append_assoc]
        rfl
      · rw [if_neg hxq, if_neg (by simpa using hxq), List.append_nil]
  have h := aux l [] List.Pairwise.nil
  simpa [sortBySimilarity] using h

/-- C8: `check_duplicate` returns its matches sorted by similarity in
descending order; the output is a permutation of the per-record
matches collected in corpus order, and within every class of
equal-similarity matches the corpus order is preserved (stability,
expressed as: filtering the output by any similarity value gives
exactly the corpus-order list filtered by that value); and
`is_duplicate` is `true` exactly when the match list is non-empty. -/
theorem claim_C8_sorted_stable_output (new_submission : Submission)
    (existing_submissions : List Submission) :
    ((check_duplicate new_submission existing_submissions).1 = true ↔
      (check_duplicate new_submission existing_submissions).2 ≠ []) ∧
    (check_duplicate new_submission existing_submissions).2.Pairwise
      (fun x y => y.similarity ≤ x.similarity) ∧
    (check_duplicate new_submission existing_submissions).2.Perm
      (existing_submissions.filterMap (checkPair new_submission)) ∧
    (∀ q : ℚ,
      (check_duplicate new_submission existing_submissions).2.filter
          (fun r => r.similarity = q) =
        (existing_submissions.filterMap (checkPair new_submission)).filter
          (fun r => r.similarity = q)) := by
  refine ⟨?_, sortBySimilarity_sorted _, sortBySimilarity_perm _,
    fun q => sortBySimilarity_filter _ q⟩
  unfold check_duplicate
  simp only [decide_eq_true_eq]
  constructor
  · intro h
    exact List.ne_nil_of_length_pos h
  · intro h
    exact List.length_pos_of_ne_nil h

/-! ### The batch runner's `results` dict (helpers for C4) -/

theorem dictInsert_lookup_self (k : String) (v : FileResult) :
    ∀ l : List (String × FileResult), (dictInsert k v l).lookup k = some v := by
  intro l
  induction l with
  | nil => simp [dictInsert]
  | cons kv rest ih =>
    obtain ⟨k', v'⟩ := kv
    unfold dictInsert
    split
    · simp
    · next hne =>
      have hbeq : (k == k') = false :=
        beq_eq_false_iff_ne.mpr (fun h => hne h.symm)
      simp only [List.lookup, hbeq]
      exact ih

theorem dictInsert_lookup_other (k p : String) (v : FileResult)
    (hne : p ≠ k) :
    ∀ l : List (String × FileResult),
    (dictInsert k v l).lookup p = l.lookup p := by
  intro l
  have hbk : (p == k) = false := beq_eq_false_iff_ne.mpr hne
  induction l with
  | nil => simp [dictInsert, List.lookup, hbk]
  | cons kv rest ih =>
    obtain ⟨k', v'⟩ := kv
    unfold dictInsert
    split
    · next heq =>
      subst heq
      simp only [List.lookup, hbk]
    · next hne' =>
      by_cases hpk' : p = k'
      · subst hpk'
        simp only [List.lookup, beq_self_eq_true]
      · have hbk' : (p == k') = false := beq_eq_false_iff_ne.mpr hpk'
        simp only [List.lookup, hbk']
        exact ih

/-- One batch step always records exactly `fileOutcome` for its file. -/
theorem batchStep_snd (corpus : List Submission)
    (load : String → Option Submission)
    (acc : Bool × List (String × FileResult)) (p : String) :
    (batchStep corpus load acc p).2 =
      dictInsert p (fileOutcome load corpus p) acc.2 := by
  unfold batchStep fileOutcome
  cases hload : load p with
  | none => rfl
  | some new_sub =>
    simp only
    split
    · rfl
    · rfl

theorem batch_fold_lookup_not_mem (load : String → Option Submission)
    (corpus : List Submission) :
    ∀ (files : List String) (acc : Bool × List (String × FileResult))
      (p : String), p ∉ files →
    ((files.foldl (batchStep corpus load) acc).2).lookup p =
      acc.2.lookup p := by
  intro files
  induction files with
  | nil => intro acc p _; rfl
  | cons q fs ih =>
    intro acc p hp
    have hpq : p ≠ q := fun h => hp (h ▸ List.mem_cons_self q fs)
    have hpfs : p ∉ fs := fun h => hp (List.mem_cons_of_mem q h)
    rw [List.foldl_cons, ih _ p hpfs, batchStep_snd,
      dictInsert_lookup_other q p _ hpq]

theorem batch_fold_lookup_mem (load : String → Option Submission)
    (corpus : List Submission) :
    ∀ (files : List String) (acc : Bool × List (String × FileResult))
      (p : String), p ∈ files →
    ((files.foldl (batchStep corpus load) acc).2).lookup p =
      some (fileOutcome load corpus p) := by
  intro files
  induction files with
  | nil => intro acc p hp; cases hp
  | cons q fs ih =>
    intro acc p hp
    rw [List.foldl_cons]
    by_cases hpfs : p ∈ fs
    · exact ih _ p hpfs
    · have hpq : p = q := by
        rcases List.mem_cons.mp hp with h | h
        · exact h
        · exact absurd h hpfs
      subst hpq
      rw [batch_fold_lookup_not_mem load corpus fs _ p hpfs,
        batchStep_snd, dictInsert_lookup_self]

/-- C4: the batch runner maps every new input identity to exactly one
outcome, looked up by identity in the `results` dict: `loadError` when
that file's own load fails (the rest of the batch is still processed —
the fold is total and every other identity still gets its own
outcome), and otherwise `unique`/`duplicate(matches)` exactly as
`check_duplicate` decides against the corpus loaded once at batch
start (`find_all_submissions load corpus_paths`) — the outcome of one
new input is the function `fileOutcome` of its own load result and the
pre-existing corpus only, never of the other new inputs. -/
theorem claim_C4_batch_outcomes (load : String → Option Submission)
    (new_files corpus_paths : List String) (p : String)
    (hp : p ∈ new_files) :
    ((check_submissions_for_duplicates load new_files corpus_paths).2).lookup p
      = some (fileOutcome load (find_all_submissions load corpus_paths) p) ∧
    (load p = none →
      fileOutcome load (find_all_submissions load corpus_paths) p =
        FileResult.loadError) ∧
    (∀ new_sub, load p = some new_sub →
      fileOutcome load (find_all_submissions load corpus_paths) p =
        (if (check_duplicate new_sub
            (find_all_submissions load corpus_paths)).1 then
          FileResult.duplicate (check_duplicate new_sub
            (find_all_submissions load corpus_paths)).2
        else FileResult.unique)) := by
  refine ⟨?_, ?_, ?_⟩
  · unfold check_submissions_for_duplicates
    exact batch_fold_lookup_mem load _ new_files (false, []) p hp
  · intro hnone
    unfold fileOutcome
    rw [hnone]
  · intro new_sub hsome
    unfold fileOutcome
    rw [hsome]

set_option maxRecDepth 8000 in
theorem claim_C4_batch_outcomes_witness :
    let oldSub : Submission :=
      ⟨"submissions/old.md", "an existing title", "existing body", "h1"⟩
    let newSub : Submission :=
      ⟨"submissions/new.md", "a wholly different name", "new body", "h2"⟩
    let load : String → Option Submission := fun p =>
      if p = "submissions/old.md" then some oldSub
      else if p = "submissions/new.md" then some newSub
      else none
    let batch := check_submissions_for_duplicates load
      ["submissions/new.md", "submissions/broken.md"] ["submissions/old.md"]
    batch.2.lookup "submissions/new.md" = some FileResult.unique ∧
    batch.2.lookup "submissions/broken.md" = some FileResult.loadError := by
  intro oldSub newSub load batch
  have h1 := claim_C4_batch_outcomes load
    ["submissions/new.md", "submissions/broken.md"] ["submissions/old.md"]
    "submissions/new.md" (by decide)
  have h2 := claim_C4_batch_outcomes load
    ["submissions/new.md", "submissions/broken.md"] ["submissions/old.md"]
    "submissions/broken.md" (by decide)
  constructor
  · rw [h1.1]
    decide
  · rw [h2.1]
    decide

/-! ### Self-similarity is 1.0 (helpers for C3)

`compute_similarity(A, B) = 1.0` whenever `normalize(A) = normalize(B)`:
for `a = b = s`, the dynamic-programming scan of `find_longest_match`
can only ever update its best block ON the diagonal (`besti = bestj`),
because any off-diagonal run is dominated by a diagonal run that is
scanned earlier (earlier outer index for `j < i`, earlier inner
position for `j > i`); and from a diagonal block the two extension
loops extend to the whole string, so the top-level call matches all of
`s` and the ratio is `2n / 2n = 1`. -/

theorem mem_indicesFrom (c : Char) :
    ∀ (l : List Char) (st j : Nat),
    j ∈ indicesFrom c st l ↔
      ∃ p, j = st + p ∧ p < l.length ∧ l.getD p ' ' = c := by
  intro l
  induction l with
  | nil =>
    intro st j
    simp [indicesFrom]
  | cons x xs ih =>
    intro st j
    unfold indicesFrom
    constructor
    · intro h
      split at h
      · next hx =>
        rcases List.mem_cons.mp h with rfl | h'
        · exact ⟨0, by omega, by simp, by simpa using hx⟩
        · obtain ⟨p, hp1, hp2, hp3⟩ := (ih (st + 1) j).mp h'
          exact ⟨p + 1, by omega, by simp; omega, by simpa using hp3⟩
      · next hx =>
        obtain ⟨p, hp1, hp2, hp3⟩ := (ih (st + 1) j).mp h
        exact ⟨p + 1, by omega, by simp; omega, by simpa using hp3⟩
    · rintro ⟨p, rfl, hp2, hp3⟩
      cases p with
      | zero =>
        have hx : x = c := by simpa using hp3
        rw [if_pos hx]
        exact List.mem_cons_self _ _
      | succ p =>
        have hmem : st + 1 + p ∈ indicesFrom c (st + 1) xs :=
          (ih (st + 1) (st + 1 + p)).mpr
            ⟨p, rfl, by simpa using hp2, by simpa using hp3⟩
        have heq : st + (p + 1) = st + 1 + p := by omega
        rw [heq]
        split
        · exact List.mem_cons_of_mem _ hmem
        · exact hmem

theorem indicesFrom_ge (c : Char) :
    ∀ (l : List Char) (st j : Nat), j ∈ indicesFrom c st l → st ≤ j := by
  intro l st j h
  obtain ⟨p, rfl, -, -⟩ := (mem_indicesFrom c l st j).mp h
  omega

theorem indicesFrom_sorted (c : Char) :
    ∀ (l : List Char) (st : Nat),
    (indicesFrom c st l).Pairwise (· < ·) := by
  intro l
  induction l with
  | nil => intro st; exact List.Pairwise.nil
  | cons x xs ih =>
    intro st
    unfold indicesFrom
    split
    · refine List.pairwise_cons.mpr ⟨?_, ih (st + 1)⟩
      intro j hj
      have := indicesFrom_ge c xs (st + 1) j hj
      omega
    · exact ih (st + 1)

theorem b2j_mem {s : List Char} {c : Char} {j : Nat} (h : j ∈ b2j s c) :
    j < s.length ∧ s.getD j ' ' = c := by
  unfold b2j at h
  split at h
  · cases h
  · obtain ⟨p, hp1, hp2, hp3⟩ := (mem_indicesFrom c s 0 j).mp h
    subst hp1
    exact ⟨by omega, by simpa using hp3⟩

theorem b2j_self {s : List Char} {i : Nat} (hi : i < s.length)
    (hne : b2j s (s.getD i ' ') ≠ []) : i ∈ b2j s (s.getD i ' ') := by
  by_cases hcond : 200 ≤ s.length ∧
      s.length / 100 + 1 < s.count (s.getD i ' ')
  · exfalso
    apply hne
    unfold b2j
    rw [if_pos hcond]
  · unfold b2j
    rw [if_neg hcond]
    exact (mem_indicesFrom _ s 0 i).mpr ⟨i, by omega, hi, rfl⟩

theorem b2j_sorted (s : List Char) (c : Char) :
    (b2j s c).Pairwise (· < ·) := by
  unfold b2j
  split
  · exact List.Pairwise.nil
  · exact indicesFrom_sorted c s 0

theorem b2j_congr {s : List Char} {i j : Nat}
    (h : j ∈ b2j s (s.getD i ' ')) :
    b2j s (s.getD j ' ') = b2j s (s.getD i ' ') := by
  rw [(b2j_mem h).2]

/-- Length of the maximal run of non-purged positions of `s` ending at
`p` (the diagonal DP run of the self-comparison scan). -/
def diagRun (s : List Char) : Nat → Nat
  | 0 => if b2j s (s.getD 0 ' ') = [] then 0 else 1
  | p + 1 => if b2j s (s.getD (p + 1) ' ') = [] then 0 else diagRun s p + 1

theorem diagRun_of_mem {s : List Char} {j : Nat}
    (h : b2j s (s.getD j ' ') ≠ []) :
    diagRun s j = (if j = 0 then 1 else diagRun s (j - 1) + 1) := by
  cases j with
  | zero =>
    show (if b2j s (s.getD 0 ' ') = [] then 0 else 1) = _
    rw [if_neg h, if_pos rfl]
  | succ p =>
    show (if b2j s (s.getD (p + 1) ' ') = [] then 0 else diagRun s p + 1) = _
    rw [if_neg h, if_neg (Nat.succ_ne_zero p)]
    rfl

theorem diagRun_pos_of_mem {s : List Char} {j : Nat}
    (h : b2j s (s.getD j ' ') ≠ []) : 1 ≤ diagRun s j := by
  rw [diagRun_of_mem h]
  split <;> omega

/-- The inner scan loop of the self-comparison: along list `js` of
positions of the character `s[i]` (ascending), every best-block update
happens on the diagonal, the new row stays bounded by the diagonal
runs, and once the diagonal position `i` has been processed the best
size dominates `diagRun s i`. -/
theorem flmInner_selfdiag (s : List Char) (i : Nat) (row : Nat → Nat)
    (hO1 : ∀ j, row j ≤ (if i = 0 then 0 else diagRun s (i - 1)))
    (hO2 : ∀ j, row j ≤ diagRun s j)
    (hO3 : i ≠ 0 → row (i - 1) = diagRun s (i - 1)) :
    ∀ (js : List Nat) (newRow : Nat → Nat) (st : FLMState),
    (∀ j ∈ js, j ∈ b2j s (s.getD i ' ')) →
    js.Pairwise (· < ·) →
    (∀ j', newRow j' ≤ diagRun s i) →
    (∀ j', newRow j' ≤ diagRun s j') →
    (st.bestsize = 0 → st.besti = 0 ∧ st.bestj = 0) →
    (st.bestsize ≠ 0 → st.besti = st.bestj) →
    (∀ i', i' < i → diagRun s i' ≤ st.bestsize) →
    (i ∈ js ∨ (diagRun s i ≤ st.bestsize ∧ newRow i = diagRun s i ∧
      ∀ j ∈ js, i < j)) →
    (∀ j', (flmInner 0 s.length i row js newRow st).1 j' ≤ diagRun s i) ∧
    (∀ j', (flmInner 0 s.length i row js newRow st).1 j' ≤ diagRun s j') ∧
    ((flmInner 0 s.length i row js newRow st).1 i = diagRun s i) ∧
    ((flmInner 0 s.length i row js newRow st).2.bestsize = 0 →
      (flmInner 0 s.length i row js newRow st).2.besti = 0 ∧
      (flmInner 0 s.length i row js newRow st).2.bestj = 0) ∧
    ((flmInner 0 s.length i row js newRow st).2.bestsize ≠ 0 →
      (flmInner 0 s.length i row js newRow st).2.besti =
        (flmInner 0 s.length i row js newRow st).2.bestj) ∧
    (∀ i', i' < i →
      diagRun s i' ≤ (flmInner 0 s.length i row js newRow st).2.bestsize) ∧
    (diagRun s i ≤ (flmInner 0 s.length i row js newRow st).2.bestsize) := by
  intro js
  induction js with
  | nil =>
    intro newRow st hjs hsort hN1 hN2 hS1 hS2 hS3 hphase
    rcases hphase with hA | ⟨hbs, hri, -⟩
    · cases hA
    · exact ⟨hN1, hN2, hri, hS1, hS2, hS3, hbs⟩
  | cons j js ih =>
    intro newRow st hjs hsort hN1 hN2 hS1 hS2 hS3 hphase
    have hjmem : j ∈ b2j s (s.getD i ' ') := hjs j (List.mem_cons_self _ _)
    have hjn : j < s.length := (b2j_mem hjmem).1
    have hmemi : b2j s (s.getD i ' ') ≠ [] := by
      intro h0
      rw [h0] at hjmem
      cases hjmem
    have hmemj : b2j s (s.getD j ' ') ≠ [] := by
      rw [b2j_congr hjmem]
      exact hmemi
    have hdi := diagRun_of_mem hmemi
    have hdj := diagRun_of_mem hmemj
    have hdipos := diagRun_pos_of_mem hmemi
    have hdjpos := diagRun_pos_of_mem hmemj
    have hk_le_di : (if j = 0 then 1 else row (j - 1) + 1) ≤ diagRun s i := by
      rw [hdi]
      split
      · split <;> omega
      · have h1 := hO1 (j - 1)
        split at h1
        · next hi0 => rw [if_pos hi0]; omega
        · next hi0 => rw [if_neg hi0]; omega
    have hk_le_dj : (if j = 0 then 1 else row (j - 1) + 1) ≤ diagRun s j := by
      split
      · omega
      · next hj0 =>
        have h2 := hO2 (j - 1)
        rw [hdj, if_neg hj0]
        omega
    have hk_pos : 1 ≤ (if j = 0 then 1 else row (j - 1) + 1) := by
      split <;> omega
    rw [show flmInner 0 s.length i row (j :: js) newRow st =
        flmInner 0 s.length i row js
          (fun j' => if j' = j then (if j = 0 then 1 else row (j - 1) + 1)
            else newRow j')
          (if st.bestsize < (if j = 0 then 1 else row (j - 1) + 1) then
            ⟨i + 1 - (if j = 0 then 1 else row (j - 1) + 1),
             j + 1 - (if j = 0 then 1 else row (j - 1) + 1),
             (if j = 0 then 1 else row (j - 1) + 1)⟩
          else st) from by
      simp only [flmInner, if_neg (Nat.not_lt_zero j),
        if_neg (not_le.mpr hjn)]]
    have hN1' : ∀ j', (fun j' => if j' = j then
        (if j = 0 then 1 else row (j - 1) + 1) else newRow j') j' ≤
        diagRun s i := by
      intro j'
      dsimp only
      split
      · exact hk_le_di
      · exact hN1 j'
    have hN2' : ∀ j', (fun j' => if j' = j then
        (if j = 0 then 1 else row (j - 1) + 1) else newRow j') j' ≤
        diagRun s j' := by
      intro j'
      dsimp only
      split
      · next hj' => rw [hj']; exact hk_le_dj
      · exact hN2 j'
    rcases hphase with hA | ⟨hbs, hri, hgt⟩
    · -- phase A: the diagonal position i is in j :: js
      rcases List.mem_cons.mp hA with hji | hA'
      · -- j = i: the diagonal step
        subst hji
        have hk_eq : (if i = 0 then 1 else row (i - 1) + 1) = diagRun s i := by
          rw [hdi]
          split
          · next hi0 => rfl
          · next hi0 => rw [hO3 hi0]
        have htail : ∀ j' ∈ js, i < j' := by
          intro j' hj'
          exact List.rel_of_pairwise_cons hsort hj'
        by_cases hup : st.bestsize < (if i = 0 then 1 else row (i - 1) + 1)
        · rw [if_pos hup]
          apply ih _ _ (fun x hx => hjs x (List.mem_cons_of_mem _ hx))
            (List.Pairwise.of_cons hsort) hN1' hN2'
          · intro h0
            dsimp only at h0
            omega
          · intro _
            rfl
          · intro i' hi'
            dsimp only
            have := hS3 i' hi'
            omega
          · right
            refine ⟨?_, ?_, htail⟩
            · dsimp only
              omega
            · dsimp only
              rw [if_pos rfl]
              exact hk_eq
        · rw [if_neg hup]
          apply ih _ _ (fun x hx => hjs x (List.mem_cons_of_mem _ hx))
            (List.Pairwise.of_cons hsort) hN1' hN2' hS1 hS2 hS3
          right
          refine ⟨by omega, ?_, htail⟩
          dsimp only
          rw [if_pos rfl]
          exact hk_eq
      · -- j ≠ i with i still to come: j < i, no update possible
        have hji : j < i := List.rel_of_pairwise_cons hsort hA'
        have hnup : ¬ st.bestsize < (if j = 0 then 1 else row (j - 1) + 1) := by
          have := hS3 j hji
          omega
        rw [if_neg hnup]
        apply ih _ _ (fun x hx => hjs x (List.mem_cons_of_mem _ hx))
          (List.Pairwise.of_cons hsort) hN1' hN2' hS1 hS2 hS3
        left
        exact hA'
    · -- phase B: diagonal already dominated, j > i
      have hij : i < j := hgt j (List.mem_cons_self _ _)
      have hnup : ¬ st.bestsize < (if j = 0 then 1 else row (j - 1) + 1) := by
        omega
      rw [if_neg hnup]
      apply ih _ _ (fun x hx => hjs x (List.mem_cons_of_mem _ hx))
        (List.Pairwise.of_cons hsort) hN1' hN2' hS1 hS2 hS3
      right
      refine ⟨hbs, ?_, fun x hx => hgt x (List.mem_cons_of_mem _ hx)⟩
      dsimp only
      rw [if_neg (by omega)]
      exact hri

theorem diagRun_of_not_mem {s : List Char} {j : Nat}
    (h : b2j s (s.getD j ' ') = []) : diagRun s j = 0 := by
  cases j with
  | zero =>
    show (if b2j s (s.getD 0 ' ') = [] then 0 else 1) = 0
    rw [if_pos h]
  | succ p =>
    show (if b2j s (s.getD (p + 1) ' ') = [] then 0 else diagRun s p + 1) = 0
    rw [if_pos h]

/-- In-range reads of the same list with different defaults agree. -/
theorem getD_default_irrel (s : List Char) (p : Nat) (hp : p < s.length) :
    s.getD p 'a' = s.getD p 'b' := by
  rw [List.getD_eq_getElem s 'a' hp, List.getD_eq_getElem s 'b' hp]

/-- The outer scan loop of the self-comparison: starting from a state
whose best block is diagonal and dominates every diagonal run before
`i`, and a row bounded by the diagonal runs, the whole remaining scan
keeps the best block diagonal and ends dominating every diagonal
run. -/
theorem flmScan_selfdiag (s : List Char) :
    ∀ (m i : Nat) (row : Nat → Nat) (st : FLMState),
    i + m = s.length →
    (∀ j, row j ≤ (if i = 0 then 0 else diagRun s (i - 1))) →
    (∀ j, row j ≤ diagRun s j) →
    (i ≠ 0 → row (i - 1) = diagRun s (i - 1)) →
    (st.bestsize = 0 → st.besti = 0 ∧ st.bestj = 0) →
    (st.bestsize ≠ 0 → st.besti = st.bestj) →
    (∀ i', i' < i → diagRun s i' ≤ st.bestsize) →
    ((flmScan s (b2j s) 0 s.length (List.range' i m) row st).bestsize = 0 →
      (flmScan s (b2j s) 0 s.length (List.range' i m) row st).besti = 0 ∧
      (flmScan s (b2j s) 0 s.length (List.range' i m) row st).bestj = 0) ∧
    ((flmScan s (b2j s) 0 s.length (List.range' i m) row st).bestsize ≠ 0 →
      (flmScan s (b2j s) 0 s.length (List.range' i m) row st).besti =
        (flmScan s (b2j s) 0 s.length (List.range' i m) row st).bestj) ∧
    (∀ i', i' < s.length →
      diagRun s i' ≤
        (flmScan s (b2j s) 0 s.length (List.range' i m) row st).bestsize) := by
  intro m
  induction m with
  | zero =>
    intro i row st hm _ _ _ hS1 hS2 hS3
    refine ⟨hS1, hS2, ?_⟩
    intro i' hi'
    exact hS3 i' (by omega)
  | succ m ih =>
    intro i row st hm hO1 hO2 hO3 hS1 hS2 hS3
    have hi : i < s.length := by omega
    rw [List.range'_succ]
    simp only [flmScan]
    by_cases hmem : b2j s (s.getD i ' ') = []
    · rw [hmem]
      have hd0 : diagRun s i = 0 := diagRun_of_not_mem hmem
      refine ih (i + 1) (fun _ => 0) st (by omega) ?_ ?_ ?_ hS1 hS2 ?_
      · intro j
        rw [if_neg (Nat.succ_ne_zero i)]
        show (0 : Nat) ≤ diagRun s i
        omega
      · intro j
        exact Nat.zero_le _
      · intro _
        show (0 : Nat) = diagRun s i
        omega
      · intro i' hi'
        rcases Nat.lt_or_ge i' i with h | h
        · exact hS3 i' h
        · have : i' = i := by omega
          subst this
          omega
    · have hinner := flmInner_selfdiag s i row hO1 hO2 hO3
        (b2j s (s.getD i ' ')) (fun _ => 0) st (fun j hj => hj)
        (b2j_sorted s _) (fun j' => Nat.zero_le _) (fun j' => Nat.zero_le _)
        hS1 hS2 hS3 (Or.inl (b2j_self hi hmem))
      obtain ⟨c1, c2, c3, c4, c5, c6, c7⟩ := hinner
      refine ih (i + 1) _ _ (by omega) ?_ c2 ?_ c4 c5 ?_
      · intro j
        rw [if_neg (Nat.succ_ne_zero i)]
        exact c1 j
      · intro _
        exact c3
      · intro i' hi'
        rcases Nat.lt_or_ge i' i with h | h
        · exact c6 i' h
        · have : i' = i := by omega
          subst this
          exact c7

/-- Extending leftwards from a diagonal block of the self-comparison
reaches the start of the string. -/
theorem extendLeft_diag (s : List Char) :
    ∀ (d size : Nat), d + size ≤ s.length →
    extendLeft s s 0 0 d d size = ⟨0, 0, size + d⟩ := by
  intro d
  induction d with
  | zero => intro size _; rfl
  | succ d ih =>
    intro size hb
    have hd : d < s.length := by omega
    simp only [extendLeft]
    rw [if_pos ⟨Nat.succ_pos d, Nat.succ_pos d, by
      show s.getD d 'a' = s.getD (d + 1 - 1) 'b'
      rw [show d + 1 - 1 = d from rfl]
      exact getD_default_irrel s d hd⟩]
    rw [show d + 1 - 1 = d from rfl]
    rw [ih (size + 1) (by omega)]
    have : size + 1 + d = size + (d + 1) := by omega
    rw [this]

/-- Extending rightwards from a diagonal block of the self-comparison
reaches the end of the string. -/
theorem extendRight_diag (s : List Char) (d : Nat) :
    ∀ (size : Nat), d + size ≤ s.length →
    extendRight s s s.length s.length d d size = s.length - d := by
  intro size
  generalize hfuel : s.length - (d + size) = fuel
  induction fuel generalizing size with
  | zero =>
    intro hb
    have heq : d + size = s.length := by omega
    rw [extendRight_stop]
    · omega
    · intro hg
      exact absurd hg.1 (by omega)
  | succ fuel ihf =>
    intro hb
    have hlt : d + size < s.length := by omega
    rw [extendRight_step]
    · exact ihf (size + 1) (by omega) (by omega)
    · exact ⟨hlt, hlt, getD_default_irrel s (d + size) hlt⟩

/-- The top-level `find_longest_match` of the self-comparison matches
the whole string. -/
theorem flm_self (s : List Char) :
    find_longest_match s s (b2j s) 0 s.length 0 s.length =
      ⟨0, 0, s.length⟩ := by
  have hdiag := flmScan_selfdiag s s.length 0 (fun _ => 0) ⟨0, 0, 0⟩
    (by omega)
    (fun j => by rw [if_pos rfl])
    (fun j => Nat.zero_le _)
    (fun h => absurd rfl h)
    (fun _ => ⟨rfl, rfl⟩)
    (fun h => absurd rfl h)
    (fun i' hi' => absurd hi' (Nat.not_lt_zero i'))
  have hinv : FLMInv 0 s.length 0 s.length
      (flmScan s (b2j s) 0 s.length (List.range' 0 s.length) (fun _ => 0)
        ⟨0, 0, 0⟩) := by
    apply flmScan_inv s (b2j s) 0 s.length 0 s.length s.length 0
      (fun _ => 0) ⟨0, 0, 0⟩ (Nat.le_refl 0) (by omega)
      (fun j' => Nat.zero_le _) (fun j' _ => Nat.zero_le _)
    exact ⟨Nat.le_refl 0, Nat.le_refl 0, fun _ => ⟨rfl, rfl⟩,
      fun h => absurd rfl h⟩
  obtain ⟨hS1, hS2, hS3⟩ := hdiag
  simp only [find_longest_match, Nat.sub_zero]
  set st := flmScan s (b2j s) 0 s.length (List.range' 0 s.length)
    (fun _ => 0) ⟨0, 0, 0⟩ with hst
  clear_value st
  obtain ⟨bi, bj2, bs⟩ := st
  obtain ⟨-, -, -, hbound⟩ := hinv
  simp only at hS1 hS2 hbound ⊢
  by_cases hz : bs = 0
  · subst hz
    obtain ⟨hb1, hb2⟩ := hS1 rfl
    subst hb1
    subst hb2
    have hL : extendLeft s s 0 0 0 0 0 = (⟨0, 0, 0⟩ : FLMState) :=
      extendLeft_diag s 0 0 (by omega)
    rw [hL]
    have hR : extendRight s s s.length s.length 0 0 0 = s.length := by
      rw [extendRight_diag s 0 0 (by omega)]
      omega
    simp only
    rw [hR]
  · have hd : bi = bj2 := hS2 hz
    subst hd
    obtain ⟨hbi, hbj⟩ := hbound hz
    have hL : extendLeft s s 0 0 bi bi bs = ⟨0, 0, bs + bi⟩ :=
      extendLeft_diag s bi bs (by omega)
    rw [hL]
    have hR : extendRight s s s.length s.length 0 0 (bs + bi) = s.length := by
      rw [extendRight_diag s 0 (bs + bi) (by omega)]
      omega
    simp only
    rw [hR]

/-- `SequenceMatcher(None, s, s).ratio()` is `1` for every `s`. -/
theorem sequenceRatio_self (s : List Char) : sequenceRatio s s = 1 := by
  by_cases hn : s.length = 0
  · unfold sequenceRatio calculate_ratio
    rw [if_neg (by omega)]
  · have hms : matchSum s s (b2j s) 0 s.length 0 s.length = s.length := by
      unfold matchSum
      obtain ⟨m, hm⟩ : ∃ m, (s.length - 0) + (s.length - 0) = m + 1 :=
        ⟨(s.length - 0) + (s.length - 0) - 1, by omega⟩
      rw [hm, matchSumGo_unfold, flm_self s]
      rw [if_neg (show ¬ (FLMState.bestsize ⟨0, 0, s.length⟩ = 0) from hn)]
      rw [if_neg (show ¬ ((0 : Nat) <
        FLMState.besti ⟨0, 0, s.length⟩ ∧ (0 : Nat) <
          FLMState.bestj ⟨0, 0, s.length⟩) from fun hc =>
        absurd hc.1 (Nat.not_lt_zero 0))]
      rw [if_neg (show ¬ (FLMState.besti ⟨0, 0, s.length⟩ +
          FLMState.bestsize ⟨0, 0, s.length⟩ < s.length ∧
        FLMState.bestj ⟨0, 0, s.length⟩ +
          FLMState.bestsize ⟨0, 0, s.length⟩ < s.length) from fun hc => by
        have := hc.1
        simp only at this
        omega)]
      rfl
    unfold sequenceRatio
    rw [hms]
    unfold calculate_ratio
    rw [if_pos (by omega), Rat.mkRat_eq_div]
    have hq : ((s.length : ℚ) + (s.length : ℚ)) ≠ 0 := by
      have : (s.length : ℚ) ≠ 0 := Nat.cast_ne_zero.mpr hn
      intro hc
      apply this
      linarith
    push_cast
    rw [div_eq_one_iff_eq hq]
    ring

/-- C3: `compute_similarity(A, B)` returns exactly 1.0 whenever
`normalize_text A = normalize_text B` (the normalized strings are identical);
in particular, for every non-empty string `A`,
`compute_similarity A A = 1.0`. -/
theorem claim_C3_self_similarity :
    (∀ A B : String, normalize_text A = normalize_text B →
      compute_similarity A B = 1) ∧
    (∀ A : String, A ≠ "" → compute_similarity A A = 1) := by
  have h1 : ∀ A B : String, normalize_text A = normalize_text B →
      compute_similarity A B = 1 := by
    intro A B h
    unfold compute_similarity
    rw [h]
    exact sequenceRatio_self _
  exact ⟨h1, fun A _ => h1 A A rfl⟩

theorem claim_C3_self_similarity_witness :
    compute_similarity "Hello, World!" "  hello   world " = 1 ∧
      compute_similarity "x" "x" = 1 :=
  ⟨claim_C3_self_similarity.1 "Hello, World!" "  hello   world " (by decide),
   claim_C3_self_similarity.2 "x" (by decide)⟩

end Dedup
